import Mathlib

/-!
Verification of the simulation core of `r_bevy_game_template`.

The Rust sources (`src/grid.rs`, `src/town.rs`, `src/citizen.rs`,
`src/simulation.rs`) are shallowly embedded below.  Machine integers
(`i32`, `usize`) are modelled by `Int`/`Nat` (no overflow occurs in any
reachable state relevant to the claims), `f32` arithmetic is modelled by
exact rational arithmetic `ℚ` with the `as i32` cast modelled by
truncation toward zero, and Bevy ECS queries are modelled by explicit
lists of components.
-/

namespace Spec2Proof

/-- A grid coordinate, Bevy's `IVec2`. -/
abbrev Pos : Type := ℤ × ℤ

/-! ### grid.rs : pure grid utilities -/

/-- `Grid::manhattan_distance` from `src/grid.rs`:
`(pos1.x - pos2.x).abs() + (pos1.y - pos2.y).abs()`, as a natural number. -/
def manhattan (p q : Pos) : ℕ :=
  (p.1 - q.1).natAbs + (p.2 - q.2).natAbs

/-- `Grid::get_orthogonal_positions` from `src/grid.rs`, in source order. -/
def orthoNeighbors (p : Pos) : List Pos :=
  [(p.1, p.2 - 1), (p.1 - 1, p.2), (p.1 + 1, p.2), (p.1, p.2 + 1)]

/-- `Grid::is_in_bounds` from `src/grid.rs`:
`pos.x >= 0 && pos.x < size as i32 && pos.y >= 0 && pos.y < size as i32`. -/
def inBounds (p : Pos) (size : ℕ) : Prop :=
  0 ≤ p.1 ∧ p.1 < (size : ℤ) ∧ 0 ≤ p.2 ∧ p.2 < (size : ℤ)

instance (p : Pos) (size : ℕ) : Decidable (inBounds p size) := by
  unfold inBounds; infer_instance

/-- A cell that `find_path` may expand: in bounds and accepted by the
`is_accessible` closure. -/
def validCell (acc : Pos → Bool) (size : ℕ) (p : Pos) : Prop :=
  inBounds p size ∧ acc p = true

instance (acc : Pos → Bool) (size : ℕ) (p : Pos) :
    Decidable (validCell acc size p) := by
  unfold validCell; infer_instance

/-- Lookup in an association list, newest binding first; models a Rust
`HashMap` whose `insert` overwrites. -/
def alookup {α : Type} : List (Pos × α) → Pos → Option α
  | [], _ => none
  | (q, v) :: l, p => if p = q then some v else alookup l p

/-- Extraction of a minimal-`f_score` node from the open set.  Models
popping Rust's `BinaryHeap<Node>` (min-heap via the reversed `Ord`); among
equal scores Rust's pop order is unspecified, here the earliest-listed
minimum is taken (the spec declares the tie-break semantically
irrelevant). -/
def extractMin : List (Pos × ℕ) → Option ((Pos × ℕ) × List (Pos × ℕ))
  | [] => none
  | e :: l =>
    match extractMin l with
    | none => some (e, [])
    | some (m, rest) => if e.2 ≤ m.2 then some (e, l) else some (m, e :: rest)

/-- The mutable state of `Grid::find_path`: the `open_set` heap (position,
`f_score`), the `came_from` map and the `g_score` map. -/
structure AState : Type where
  frontier : List (Pos × ℕ)
  came : List (Pos × Pos)
  gmap : List (Pos × ℕ)
deriving Repr

/-- The accepted-update branch of the neighbour loop of
`Grid::find_path`: record the predecessor, store the tentative score and
push the node with `f_score = tentative_g + manhattan(neighbor, goal)`. -/
def pushNeighbor (goal : Pos) (cur : Pos) (curG : ℕ) (s : AState)
    (nb : Pos) : AState :=
  { frontier := (nb, (curG + 1) + manhattan nb goal) :: s.frontier
    came := (nb, cur) :: s.came
    gmap := (nb, curG + 1) :: s.gmap }

/-- The body of the `for neighbor in ...` loop of `Grid::find_path`:
out-of-bounds or inaccessible neighbours are skipped, and the update is
applied when `tentative_g < *g_score.get(&neighbor).unwrap_or(&i32::MAX)`
— a missing `g_score` entry is `i32::MAX` in the source, larger than
every tentative score that arises, modelled by the `none` case accepting
the update unconditionally. -/
def relaxNeighbor (goal : Pos) (acc : Pos → Bool) (size : ℕ) (cur : Pos)
    (curG : ℕ) (s : AState) (nb : Pos) : AState :=
  if inBounds nb size ∧ acc nb = true then
    match alookup s.gmap nb with
    | none => pushNeighbor goal cur curG s nb
    | some old =>
      if curG + 1 < old then pushNeighbor goal cur curG s nb else s
  else s

/-- One expansion of a popped node `cur`: `current_g` is read once (the
source line `let current_g = *g_score.get(&current.position)...`, with the
`i32::MAX` default irrelevant since every popped node has a score), then
all four orthogonal neighbours are relaxed in source order. -/
def expandNode (goal : Pos) (acc : Pos → Bool) (size : ℕ) (cur : Pos)
    (s : AState) : AState :=
  let curG := (alookup s.gmap cur).getD 0
  (orthoNeighbors cur).foldl (relaxNeighbor goal acc size cur curG) s

/-- The path-reconstruction loop of `Grid::find_path` (`while let
Some(&prev) = came_from.get(&current)`), building the list front-first
(the source pushes and then reverses).  The fuel bounds the number of
predecessor links followed; in every reachable state the predecessor
chain is strictly `g_score`-decreasing and therefore shorter than the
fuel supplied by `reconstruct`. -/
def reconstructGo (came : List (Pos × Pos)) : ℕ → Pos → List Pos → List Pos
  | 0, _, path => path
  | fuel + 1, current, path =>
    match alookup came current with
    | none => path
    | some prev => reconstructGo came fuel prev (prev :: path)

/-- Path reconstruction from the goal. -/
def reconstruct (came : List (Pos × Pos)) (goal : Pos) : List Pos :=
  reconstructGo came (came.length + 1) goal [goal]

/-- The `while let Some(current) = open_set.pop()` loop of
`Grid::find_path`.  The fuel argument only bounds the iteration count; it
is chosen large enough (`astarFuel`) that it never reaches zero, which is
proved via a strictly decreasing measure. -/
def astarLoop (goal : Pos) (acc : Pos → Bool) (size : ℕ) :
    ℕ → AState → Option (List Pos)
  | 0, _ => none
  | fuel + 1, s =>
    match extractMin s.frontier with
    | none => none
    | some ((cur, _), rest) =>
      if cur = goal then some (reconstruct s.came goal)
      else astarLoop goal acc size fuel
        (expandNode goal acc size cur { s with frontier := rest })

/-- Fuel that provably dominates the loop's decreasing measure. -/
def astarFuel (size : ℕ) : ℕ :=
  5 * (size * size + 1) * (size * size + 1) + 2

/-- `Grid::find_path` from `src/grid.rs`. -/
def findPath (start goal : Pos) (acc : Pos → Bool) (size : ℕ) :
    Option (List Pos) :=
  astarLoop goal acc size (astarFuel size)
    { frontier := [(start, manhattan start goal)]
      came := []
      gmap := [(start, 0)] }

/-! ### Path predicates used to state the path-finding claims -/

/-- One orthogonal step. -/
def orthoAdj (a b : Pos) : Prop := b ∈ orthoNeighbors a

instance : DecidableRel orthoAdj := fun a b =>
  inferInstanceAs (Decidable (b ∈ orthoNeighbors a))

/-- A `Chain'` decidability instance that reduces under kernel
evaluation. -/
instance decChainOrtho : ∀ l : List Pos, Decidable (List.Chain' orthoAdj l)
  | [] => isTrue (by simp)
  | [_] => isTrue (by simp)
  | a :: b :: l =>
    have : Decidable (List.Chain' orthoAdj (b :: l)) := decChainOrtho (b :: l)
    decidable_of_iff (orthoAdj a b ∧ List.Chain' orthoAdj (b :: l))
      (List.chain'_cons).symm

/-- An orthogonal path from `start` to `goal` every cell of which — except
possibly the start itself — is accessible and in bounds.  This is exactly
the class of paths `find_path` searches: the start is never tested, every
other cell enters the search as a filtered neighbour. -/
def ValidPath (start goal : Pos) (acc : Pos → Bool) (size : ℕ)
    (π : List Pos) : Prop :=
  π ≠ [] ∧ π.head? = some start ∧ π.getLast? = some goal ∧
    List.Chain' orthoAdj π ∧ ∀ p ∈ π.tail, validCell acc size p

instance (start goal : Pos) (acc : Pos → Bool) (size : ℕ) (π : List Pos) :
    Decidable (ValidPath start goal acc size π) := by
  unfold ValidPath; infer_instance

/-- An orthogonal path all of whose cells, endpoints included, are
accessible and in bounds — the hypothesis class of the optimality claim. -/
def ValidPathAll (start goal : Pos) (acc : Pos → Bool) (size : ℕ)
    (π : List Pos) : Prop :=
  ValidPath start goal acc size π ∧ ∀ p ∈ π, validCell acc size p

instance (start goal : Pos) (acc : Pos → Bool) (size : ℕ) (π : List Pos) :
    Decidable (ValidPathAll start goal acc size π) := by
  unfold ValidPathAll; infer_instance

/-- Number of steps of a path (cells minus one). -/
def steps (π : List Pos) : ℕ := π.length - 1

/-- The orthogonal-path notion used verbatim by the spec's completeness
sentence: every cell strictly between the endpoints is accessible and in
bounds, while both the start and the goal are exempt from the
accessibility test. -/
def SpecExemptPath (start goal : Pos) (acc : Pos → Bool) (size : ℕ)
    (π : List Pos) : Prop :=
  π ≠ [] ∧ π.head? = some start ∧ π.getLast? = some goal ∧
    List.Chain' orthoAdj π ∧ ∀ p ∈ π.tail.dropLast, validCell acc size p

instance (start goal : Pos) (acc : Pos → Bool) (size : ℕ) (π : List Pos) :
    Decidable (SpecExemptPath start goal acc size π) := by
  unfold SpecExemptPath; infer_instance

/-- Claim C2 as stated: `find_path` returns `None` exactly when no
orthogonal path with accessible interior and exempt endpoints exists. -/
def ClaimC2Statement : Prop :=
  ∀ (start goal : Pos) (acc : Pos → Bool) (size : ℕ),
    findPath start goal acc size = none ↔
      ¬ ∃ π, SpecExemptPath start goal acc size π

/-! ### town.rs : data model and editing -/

/-- `ZoneType` from `src/town.rs`. -/
inductive ZoneType : Type
  | noZone | residential | commercial | industrial
deriving DecidableEq, Repr

/-- `BuildingType` from `src/town.rs`. -/
inductive BuildingType : Type
  | noBuilding | road | townHall | powerPlant | waterTower | police | fire
  | hospital | school | park | lawAndOrder | education | transport
  | health | energy | housing | socialServices | upgrade
deriving DecidableEq, Repr

/-- `TownCell` from `src/town.rs`. -/
structure TownCell : Type where
  position : Pos
  zone : ZoneType
  building : BuildingType
  accessible : Bool
deriving DecidableEq, Repr

/-- `TOWN_GRID_SIZE` from `src/town.rs`. -/
def TOWN_GRID_SIZE : ℕ := 50

/-- The cell spawned for every grid position by `setup_town`. -/
def setupCell (position : Pos) : TownCell :=
  { position := position
    zone := ZoneType.noZone
    building := BuildingType.noBuilding
    accessible := false }

/-- The building-tool branch of `handle_town_interaction`:
`cell.building = building_type; cell.zone = ZoneType::None;`
(the `accessible` field is not written). -/
def applyBuildingTool (cell : TownCell) (bt : BuildingType) : TownCell :=
  { cell with building := bt, zone := ZoneType.noZone }

/-- The zone-tool branch of `handle_town_interaction`:
`cell.zone = zone_type;` and the building is cleared unless it is a road
(the `accessible` field is not written). -/
def applyZoneTool (cell : TownCell) (zt : ZoneType) : TownCell :=
  { cell with
    zone := zt
    building :=
      if cell.building ≠ BuildingType.road then BuildingType.noBuilding
      else cell.building }

/-! ### simulation.rs : aggregate tick functions -/

/-- The Rust `as i32` cast of an (exactly represented) `f32` value:
truncation toward zero. -/
def truncToInt (q : ℚ) : ℤ := q.num.tdiv q.den

/-- `Population` from `src/simulation.rs` (fields used by the claims). -/
structure Population : Type where
  total : ℤ
  employed : ℤ
deriving DecidableEq, Repr

/-- `Economy` from `src/simulation.rs`. -/
structure Economy : Type where
  funds : ℤ
  income : ℤ
  expenses : ℤ
  tax_rate : ℚ
deriving DecidableEq, Repr

/-- `ResourceInfo` from `src/simulation.rs`. -/
structure ResourceInfo : Type where
  production : ℤ
  consumption : ℤ
  storage : ℤ
  max_storage : ℤ
deriving DecidableEq, Repr

/-- `Resources` from `src/simulation.rs`. -/
structure Resources : Type where
  power : ResourceInfo
  water : ResourceInfo
  goods : ResourceInfo
  services : ResourceInfo
deriving DecidableEq, Repr

/-- `update_economy` from `src/simulation.rs`, with `f32` arithmetic
modelled exactly over `ℚ` and each `as i32` cast modelled by
`truncToInt`. -/
def update_economy (population : Population) (economy : Economy) : Economy :=
  let base_income : ℚ := (population.total : ℚ) * 1.0
  let employment_bonus : ℚ := (population.employed : ℚ) * 2.0
  let income : ℤ := truncToInt (base_income + employment_bonus)
  let expenses : ℤ := truncToInt ((population.total : ℚ) * 0.5)
  let net_income : ℤ := truncToInt ((income : ℚ) * economy.tax_rate) - expenses
  { economy with
    income := income
    expenses := expenses
    funds := economy.funds + net_income }

/-- The production-accumulation loop body of `update_resources`. -/
def addCellProduction (r : Resources) (cell : TownCell) : Resources :=
  let r : Resources :=
    match cell.building with
    | BuildingType.powerPlant =>
      { r with power := { r.power with production := r.power.production + 100 } }
    | BuildingType.waterTower =>
      { r with water := { r.water with production := r.water.production + 100 } }
    | _ => r
  let r : Resources :=
    if cell.zone = ZoneType.industrial then
      { r with goods := { r.goods with production := r.goods.production + 5 } }
    else r
  if cell.zone = ZoneType.commercial then
    { r with services := { r.services with production := r.services.production + 5 } }
  else r

/-- Resetting every production and consumption to zero, the first step of
`update_resources`. -/
def resetProduction (r : Resources) : Resources :=
  { power := { r.power with production := 0, consumption := 0 }
    water := { r.water with production := 0, consumption := 0 }
    goods := { r.goods with production := 0, consumption := 0 }
    services := { r.services with production := 0, consumption := 0 } }

/-- The clamped storage step of `update_resources` applied to one
resource: `storage += (production - consumption).max(-storage)` followed
by `storage = storage.min(max_storage)`. -/
def applyStorageStep (i : ResourceInfo) : ResourceInfo :=
  let s := i.storage + max (i.production - i.consumption) (-i.storage)
  { i with storage := min s i.max_storage }

/-- `update_resources` from `src/simulation.rs`: reset, accumulate
production over all town cells, set population-proportional consumption
(`as i32` truncation), then clamp and cap each storage. -/
def update_resources (resources : Resources) (cells : List TownCell)
    (population : Population) : Resources :=
  let r := cells.foldl addCellProduction (resetProduction resources)
  let population_consumption : ℤ := truncToInt ((population.total : ℚ) * 0.1)
  let r : Resources :=
    { power := { r.power with consumption := population_consumption }
      water := { r.water with consumption := population_consumption }
      goods := { r.goods with
        consumption := truncToInt ((population.total : ℚ) * 0.05) }
      services := { r.services with
        consumption := truncToInt ((population.total : ℚ) * 0.05) } }
  { power := applyStorageStep r.power
    water := applyStorageStep r.water
    goods := applyStorageStep r.goods
    services := applyStorageStep r.services }

/-- `update_happiness` from `src/simulation.rs`; returns the new town
happiness.  `f32::clamp(0.0, 1.0)` is `min (max x 0) 1`. -/
def update_happiness (happiness : ℚ) (resources : Resources)
    (population : Population) (economy : Economy) (dt : ℚ) : ℚ :=
  let resource_factor : ℚ :=
    if 0 < resources.power.storage ∧ 0 < resources.water.storage then 1.0
    else 0.5
  let employment_factor : ℚ :=
    if 0 < population.total then
      (population.employed : ℚ) / (population.total : ℚ)
    else 1.0
  let tax_factor : ℚ := 1.0 - economy.tax_rate
  let target_happiness : ℚ := resource_factor * employment_factor * tax_factor
  let adjustment_rate : ℚ := 0.1 * dt
  let h : ℚ := happiness + (target_happiness - happiness) * adjustment_rate
  min (max h 0.0) 1.0

/-- Claim C7 as stated: each consumption equals the population-
proportional value rounded to the nearest integer. -/
def ClaimC7Statement : Prop :=
  ∀ (resources : Resources) (cells : List TownCell) (population : Population),
    (update_resources resources cells population).power.consumption =
        round ((population.total : ℚ) * 0.1) ∧
      (update_resources resources cells population).water.consumption =
        round ((population.total : ℚ) * 0.1) ∧
      (update_resources resources cells population).goods.consumption =
        round ((population.total : ℚ) * 0.05) ∧
      (update_resources resources cells population).services.consumption =
        round ((population.total : ℚ) * 0.05)

/-! ### citizen.rs : resident spawning (C3) -/

/-- The capacity decision of `spawn_citizens` once its periodic timer has
fired, as a function of the live citizen count and the residential-zone
count: at or above `5 × residential` capacity nothing is spawned,
otherwise exactly one citizen is spawned in some residential zone
(if any exists). -/
def spawnCitizensStep (citizenCount residentialCount : ℕ) : ℕ :=
  let max_citizens := residentialCount * 5
  if citizenCount ≥ max_citizens then citizenCount
  else if residentialCount ≠ 0 then citizenCount + 1
  else citizenCount

/-- The live citizen counts after each attempt of a sequence of spawn
attempts, the residential-zone count being sampled at each attempt. -/
def spawnCounts (init : ℕ) (rs : List ℕ) : List ℕ :=
  (rs.scanl spawnCitizensStep init).tail

/-- Claim C3 as stated: starting from no citizens, after every attempt of
any sequence of spawn attempts the live count is at most five times the
residential-zone count measured at that attempt. -/
def ClaimC3Statement : Prop :=
  ∀ rs : List ℕ, ∀ pr ∈ rs.zip (spawnCounts 0 rs), pr.2 ≤ 5 * pr.1

/-! ### citizen.rs : vehicle spawning and movement (C8, C10) -/

/-- `CitizenState` from `src/citizen.rs`. -/
inductive CitizenState : Type
  | atHome | goingToWork | atWork | goingHome | shopping
deriving DecidableEq, Repr

/-- The `Citizen` component fields that determine vehicle routing. -/
structure Citizen : Type where
  home : Pos
  workplace : Option Pos
  destination : Pos
  state : CitizenState
deriving DecidableEq, Repr

/-- A citizen counts as traveling for `spawn_vehicles`. -/
def isTraveling (c : Citizen) : Prop :=
  c.state = CitizenState.goingToWork ∨ c.state = CitizenState.goingHome ∨
    c.state = CitizenState.shopping

instance (c : Citizen) : Decidable (isTraveling c) := by
  unfold isTraveling; infer_instance

/-- `find_nearest_road` from `src/citizen.rs`: `min_by_key` over Manhattan
distance; Rust's `min_by_key` keeps the first of equally minimal
elements. -/
def find_nearest_road (road_cells : List TownCell) (position : Pos) :
    Option TownCell :=
  match road_cells with
  | [] => none
  | c :: rest =>
    some (rest.foldl
      (fun best cell =>
        if manhattan cell.position position < manhattan best.position position
        then cell else best)
      c)

/-- The road endpoints `spawn_vehicles` feeds to the path planner: the
road nearest the citizen's *home* and the road nearest the citizen's
current destination (`find_nearest_road(&road_cells, citizen.home)` /
`find_nearest_road(&road_cells, citizen.destination)`). -/
def vehicleRouteEndpoints (road_cells : List TownCell) (c : Citizen) :
    Option TownCell × Option TownCell :=
  (find_nearest_road road_cells c.home,
    find_nearest_road road_cells c.destination)

/-- The `is_road` closure of `spawn_vehicles`: membership of a position
among the road cells. -/
def isRoadPred (road_cells : List TownCell) : Pos → Bool :=
  fun pos => road_cells.any (fun cell => cell.position = pos)

/-- The planner call of `spawn_vehicles`: `Grid::find_path` between the
two nearest-road endpoints, skipped when either endpoint is missing. -/
def spawnVehiclePath (road_cells : List TownCell) (c : Citizen)
    (size : ℕ) : Option (List Pos) :=
  match find_nearest_road road_cells c.home,
      find_nearest_road road_cells c.destination with
  | some s, some d =>
    findPath s.position d.position (isRoadPred road_cells) size
  | _, _ => none

/-- Modelled from the spec: the origin-of-travel of a traveling resident,
which the source does not store explicitly — the trip of a
`GoingToWork` or `Shopping` resident starts at its home, the trip of a
`GoingHome` resident starts where it was (its workplace when returning
from work; its home is used as a fallback when no workplace exists). -/
def specOriginOfTravel (c : Citizen) : Pos :=
  match c.state with
  | CitizenState.goingHome => c.workplace.getD c.home
  | _ => c.home

/-- Claim C8 as stated: for a traveling citizen the first route endpoint
is the road nearest the citizen's origin-of-travel (the second being the
road nearest the destination). -/
def ClaimC8Statement : Prop :=
  ∀ (road_cells : List TownCell) (c : Citizen), isTraveling c →
    vehicleRouteEndpoints road_cells c =
      (find_nearest_road road_cells (specOriginOfTravel c),
        find_nearest_road road_cells c.destination)

/-- The `Vehicle` component fields relevant to path-index safety. -/
structure Vehicle : Type where
  path : List Pos
  path_index : ℕ
deriving DecidableEq, Repr

/-- The vehicle constructed by `spawn_vehicles` from a path-planner
result: a vehicle is spawned only when `find_path` returned `Some(path)`
with `!path.is_empty()`, and then `path_index` starts at `0`. -/
def spawnVehicle (pathResult : Option (List Pos)) : Option Vehicle :=
  match pathResult with
  | none => none
  | some path => if path ≠ [] then some { path := path, path_index := 0 } else none

/-- One `update_vehicles` step for a single vehicle: despawn when
`path_index >= path.len() - 1`, otherwise read `path[path_index]` and
`path[path_index + 1]` and advance the index when the translation has
reached the next waypoint (the real-valued distance test is abstracted
by the boolean `reached`). -/
def updateVehicle (v : Vehicle) (reached : Bool) : Option Vehicle :=
  if v.path_index ≥ v.path.length - 1 then none
  else some { v with path_index := if reached then v.path_index + 1 else v.path_index }

/-- Iterated vehicle updates (despawn propagates). -/
def runVehicleUpdates (v : Vehicle) : List Bool → Option Vehicle
  | [] => some v
  | reached :: bs =>
    match updateVehicle v reached with
    | none => none
    | some v' => runVehicleUpdates v' bs

/-- The safety invariant of C10: the path is non-empty and the cursor
stays strictly inside it. -/
def VehicleInv (v : Vehicle) : Prop :=
  v.path ≠ [] ∧ v.path_index < v.path.length

instance (v : Vehicle) : Decidable (VehicleInv v) := by
  unfold VehicleInv; infer_instance

/-! ### Termination measure and loop invariant for `find_path` -/

/-- The in-bounds cells as a finite set. -/
def boundsFinset (size : ℕ) : Finset Pos :=
  (Finset.range size ×ˢ Finset.range size).image
    (fun ab => ((ab.1 : ℤ), (ab.2 : ℤ)))

/-- Every position the search can ever score: the start plus the
in-bounds cells. -/
def domainD (start : Pos) (size : ℕ) : Finset Pos :=
  insert start (boundsFinset size)

/-- The distinct keys of a score map. -/
def keyCount {α : Type} (g : List (Pos × α)) : ℕ :=
  (g.map Prod.fst).dedup.length

/-- Potential of the `g_score` map: unset scores count as the domain
size, an upper bound of every score that can ever be stored; each
insertion strictly decreases the potential. -/
def phi (start : Pos) (size : ℕ) (s : AState) : ℕ :=
  ∑ p ∈ domainD start size,
    ((alookup s.gmap p).elim ((domainD start size).card) id)

/-- Strictly decreasing measure of the `find_path` loop. -/
def loopMeasure (start : Pos) (size : ℕ) (s : AState) : ℕ :=
  5 * phi start size s + s.frontier.length

/-- The inductive invariant of the `find_path` loop state. -/
structure Inv (start goal : Pos) (acc : Pos → Bool) (size : ℕ)
    (s : AState) : Prop where
  ent : ∀ e ∈ s.frontier,
    ∃ v, alookup s.gmap e.1 = some v ∧ v + manhattan e.1 goal ≤ e.2
  gstart : alookup s.gmap start = some 0
  inv8 : ∀ p v, alookup s.gmap p = some v →
    (∃ f, (p, f) ∈ s.frontier ∧ f ≤ v + manhattan p goal) ∨
    (∀ nb ∈ orthoNeighbors p, validCell acc size nb →
      ∃ w, alookup s.gmap nb = some w ∧ w ≤ v + 1)
  cf : ∀ p q, alookup s.came p = some q →
    ∃ vp vq, alookup s.gmap p = some vp ∧ alookup s.gmap q = some vq ∧
      vq < vp ∧ p ∈ orthoNeighbors q ∧ validCell acc size p ∧ p ≠ start
  cf2 : ∀ p v, alookup s.gmap p = some v → p ≠ start →
    ∃ q, alookup s.came p = some q
  gbound : ∀ p v, alookup s.gmap p = some v → v ≤ s.came.length
  gdom : ∀ p v, alookup s.gmap p = some v → p ∈ domainD start size
  gubd : ∀ p v, alookup s.gmap p = some v → v < keyCount s.gmap
  gnp : ∀ v, alookup s.gmap goal = some v → ∃ f, (goal, f) ∈ s.frontier

/-- The invariant holding within the expansion of a popped node `cur`:
as `Inv` except that `cur` itself is exempt from `inv8` (its relaxation
obligation is re-established once all four neighbours are processed) and
`cur`'s score is pinned to the `current_g` read before the loop. -/
structure FoldInv (start goal : Pos) (acc : Pos → Bool) (size : ℕ)
    (cur : Pos) (curG : ℕ) (s : AState) : Prop where
  ent : ∀ e ∈ s.frontier,
    ∃ v, alookup s.gmap e.1 = some v ∧ v + manhattan e.1 goal ≤ e.2
  gstart : alookup s.gmap start = some 0
  inv8 : ∀ p v, alookup s.gmap p = some v → p ≠ cur →
    (∃ f, (p, f) ∈ s.frontier ∧ f ≤ v + manhattan p goal) ∨
    (∀ nb ∈ orthoNeighbors p, validCell acc size nb →
      ∃ w, alookup s.gmap nb = some w ∧ w ≤ v + 1)
  cf : ∀ p q, alookup s.came p = some q →
    ∃ vp vq, alookup s.gmap p = some vp ∧ alookup s.gmap q = some vq ∧
      vq < vp ∧ p ∈ orthoNeighbors q ∧ validCell acc size p ∧ p ≠ start
  cf2 : ∀ p v, alookup s.gmap p = some v → p ≠ start →
    ∃ q, alookup s.came p = some q
  gbound : ∀ p v, alookup s.gmap p = some v → v ≤ s.came.length
  gdom : ∀ p v, alookup s.gmap p = some v → p ∈ domainD start size
  gubd : ∀ p v, alookup s.gmap p = some v → v < keyCount s.gmap
  gnp : ∀ v, alookup s.gmap goal = some v → ∃ f, (goal, f) ∈ s.frontier
  curg : alookup s.gmap cur = some curG

/-- `ReachN start acc size k q`: there is an orthogonal path of `k` steps
from `start` to `q` whose cells after the start are all accessible and in
bounds — the relational mirror of `ValidPath` indexed by step count. -/
inductive ReachN (start : Pos) (acc : Pos → Bool) (size : ℕ) :
    ℕ → Pos → Prop
  | refl : ReachN start acc size 0 start
  | step : ∀ {k p q}, ReachN start acc size k p → orthoAdj p q →
      validCell acc size q → ReachN start acc size (k + 1) q

/-- A bare chain of orthogonal steps (no accessibility constraint), used
to bound the Manhattan heuristic from above by any remaining walk. -/
inductive AdjChain : Pos → ℕ → Pos → Prop
  | refl : ∀ p, AdjChain p 0 p
  | step : ∀ {p n q q'}, AdjChain p n q → orthoAdj q q' →
      AdjChain p (n + 1) q'

/-! ## Theorems -/

/-! ### Arithmetic facts about the modelled `as i32` cast -/

theorem truncToInt_intCast (n : ℤ) : truncToInt (n : ℚ) = n := by
  simp [truncToInt, Rat.num_intCast, Rat.den_intCast]

theorem truncToInt_of_nonneg {q : ℚ} (h : 0 ≤ q) : truncToInt q = ⌊q⌋ := by
  rw [truncToInt, Int.tdiv_eq_ediv (Rat.num_nonneg.mpr h) (by positivity),
    Rat.floor_def]

theorem truncToInt_neg (q : ℚ) : truncToInt (-q) = -truncToInt q := by
  simp [truncToInt, Rat.neg_num, Int.neg_tdiv]

theorem truncToInt_intCast_div_natCast (n : ℤ) (d : ℕ) :
    truncToInt ((n : ℚ) / (d : ℚ)) = n.tdiv d := by
  rcases le_or_lt 0 n with hn | hn
  · rw [truncToInt_of_nonneg (by positivity), Rat.floor_intCast_div_natCast,
      Int.tdiv_eq_ediv hn (Int.natCast_nonneg d)]
  · have h : (n : ℚ) / (d : ℚ) = -(((-n : ℤ) : ℚ) / (d : ℚ)) := by
      push_cast; ring
    have h2 : (0 : ℚ) ≤ ((-n : ℤ) : ℚ) / (d : ℚ) := by
      apply div_nonneg _ (by positivity)
      exact_mod_cast (by omega : (0 : ℤ) ≤ -n)
    rw [h, truncToInt_neg, truncToInt_of_nonneg h2,
      Rat.floor_intCast_div_natCast,
      ← Int.tdiv_eq_ediv (by omega) (Int.natCast_nonneg d),
      Int.neg_tdiv, neg_neg]

/-! ### C4: resource storage bounds -/

theorem addCellProduction_storage (r : Resources) (cell : TownCell) :
    (addCellProduction r cell).power.storage = r.power.storage ∧
    (addCellProduction r cell).power.max_storage = r.power.max_storage ∧
    (addCellProduction r cell).water.storage = r.water.storage ∧
    (addCellProduction r cell).water.max_storage = r.water.max_storage ∧
    (addCellProduction r cell).goods.storage = r.goods.storage ∧
    (addCellProduction r cell).goods.max_storage = r.goods.max_storage ∧
    (addCellProduction r cell).services.storage = r.services.storage ∧
    (addCellProduction r cell).services.max_storage = r.services.max_storage := by
  rcases cell with ⟨pos, z, b, a⟩
  unfold addCellProduction
  cases b <;> cases z <;> simp

theorem foldl_addCellProduction_storage (cells : List TownCell) :
    ∀ r : Resources,
      (cells.foldl addCellProduction r).power.storage = r.power.storage ∧
      (cells.foldl addCellProduction r).power.max_storage = r.power.max_storage ∧
      (cells.foldl addCellProduction r).water.storage = r.water.storage ∧
      (cells.foldl addCellProduction r).water.max_storage = r.water.max_storage ∧
      (cells.foldl addCellProduction r).goods.storage = r.goods.storage ∧
      (cells.foldl addCellProduction r).goods.max_storage = r.goods.max_storage ∧
      (cells.foldl addCellProduction r).services.storage = r.services.storage ∧
      (cells.foldl addCellProduction r).services.max_storage =
        r.services.max_storage := by
  induction cells with
  | nil => intro r; simp
  | cons cell rest ih =>
    intro r
    have h1 := addCellProduction_storage r cell
    have h2 := ih (addCellProduction r cell)
    simp only [List.foldl_cons]
    omega

theorem applyStorageStep_bounds (i : ResourceInfo)
    (h0 : 0 ≤ i.storage) (h1 : i.storage ≤ i.max_storage) :
    0 ≤ (applyStorageStep i).storage ∧
      (applyStorageStep i).storage ≤ (applyStorageStep i).max_storage := by
  unfold applyStorageStep
  dsimp only
  constructor
  · have := le_max_right (i.production - i.consumption) (-i.storage)
    omega
  · omega

/-- C4.  For every resource, a storage within `[0, max_storage]` before a
resources tick stays within `[0, max_storage]` after it, whatever the
population total and the zone/building population of the grid: the tick
adds `(production - consumption).max(-storage)` and caps at
`max_storage`. -/
theorem update_resources_storage_bounds (res : Resources)
    (cells : List TownCell) (pop : Population)
    (hp : 0 ≤ res.power.storage ∧ res.power.storage ≤ res.power.max_storage)
    (hw : 0 ≤ res.water.storage ∧ res.water.storage ≤ res.water.max_storage)
    (hg : 0 ≤ res.goods.storage ∧ res.goods.storage ≤ res.goods.max_storage)
    (hs : 0 ≤ res.services.storage ∧
      res.services.storage ≤ res.services.max_storage) :
    (0 ≤ (update_resources res cells pop).power.storage ∧
      (update_resources res cells pop).power.storage ≤
        (update_resources res cells pop).power.max_storage) ∧
    (0 ≤ (update_resources res cells pop).water.storage ∧
      (update_resources res cells pop).water.storage ≤
        (update_resources res cells pop).water.max_storage) ∧
    (0 ≤ (update_resources res cells pop).goods.storage ∧
      (update_resources res cells pop).goods.storage ≤
        (update_resources res cells pop).goods.max_storage) ∧
    (0 ≤ (update_resources res cells pop).services.storage ∧
      (update_resources res cells pop).services.storage ≤
        (update_resources res cells pop).services.max_storage) := by
  have hfold :=
    foldl_addCellProduction_storage cells (resetProduction res)
  have e1 : (resetProduction res).power.storage = res.power.storage := rfl
  have e2 : (resetProduction res).power.max_storage =
    res.power.max_storage := rfl
  have e3 : (resetProduction res).water.storage = res.water.storage := rfl
  have e4 : (resetProduction res).water.max_storage =
    res.water.max_storage := rfl
  have e5 : (resetProduction res).goods.storage = res.goods.storage := rfl
  have e6 : (resetProduction res).goods.max_storage =
    res.goods.max_storage := rfl
  have e7 : (resetProduction res).services.storage =
    res.services.storage := rfl
  have e8 : (resetProduction res).services.max_storage =
    res.services.max_storage := rfl
  have ep : (update_resources res cells pop).power =
      applyStorageStep
        { (cells.foldl addCellProduction (resetProduction res)).power with
          consumption := truncToInt ((pop.total : ℚ) * 0.1) } := rfl
  have ew : (update_resources res cells pop).water =
      applyStorageStep
        { (cells.foldl addCellProduction (resetProduction res)).water with
          consumption := truncToInt ((pop.total : ℚ) * 0.1) } := rfl
  have eg : (update_resources res cells pop).goods =
      applyStorageStep
        { (cells.foldl addCellProduction (resetProduction res)).goods with
          consumption := truncToInt ((pop.total : ℚ) * 0.05) } := rfl
  have es : (update_resources res cells pop).services =
      applyStorageStep
        { (cells.foldl addCellProduction (resetProduction res)).services with
          consumption := truncToInt ((pop.total : ℚ) * 0.05) } := rfl
  rw [ep, ew, eg, es]
  exact ⟨applyStorageStep_bounds _
      (show (0:ℤ) ≤ (cells.foldl addCellProduction
        (resetProduction res)).power.storage by omega)
      (show (cells.foldl addCellProduction (resetProduction res)).power.storage
        ≤ (cells.foldl addCellProduction
          (resetProduction res)).power.max_storage by omega),
    applyStorageStep_bounds _
      (show (0:ℤ) ≤ (cells.foldl addCellProduction
        (resetProduction res)).water.storage by omega)
      (show (cells.foldl addCellProduction (resetProduction res)).water.storage
        ≤ (cells.foldl addCellProduction
          (resetProduction res)).water.max_storage by omega),
    applyStorageStep_bounds _
      (show (0:ℤ) ≤ (cells.foldl addCellProduction
        (resetProduction res)).goods.storage by omega)
      (show (cells.foldl addCellProduction (resetProduction res)).goods.storage
        ≤ (cells.foldl addCellProduction
          (resetProduction res)).goods.max_storage by omega),
    applyStorageStep_bounds _
      (show (0:ℤ) ≤ (cells.foldl addCellProduction
        (resetProduction res)).services.storage by omega)
      (show (cells.foldl addCellProduction
          (resetProduction res)).services.storage
        ≤ (cells.foldl addCellProduction
          (resetProduction res)).services.max_storage by omega)⟩

/-- Witness for C4 at a concrete resource state. -/
theorem update_resources_storage_bounds_witness :
    ((0:ℤ) ≤ 5 ∧ (5:ℤ) ≤ 100) ∧
      (0 ≤ (update_resources
          ⟨⟨0, 0, 5, 100⟩, ⟨0, 0, 5, 100⟩, ⟨0, 0, 5, 100⟩, ⟨0, 0, 5, 100⟩⟩
          [] ⟨7, 3⟩).power.storage ∧
        (update_resources
          ⟨⟨0, 0, 5, 100⟩, ⟨0, 0, 5, 100⟩, ⟨0, 0, 5, 100⟩, ⟨0, 0, 5, 100⟩⟩
          [] ⟨7, 3⟩).power.storage ≤
        (update_resources
          ⟨⟨0, 0, 5, 100⟩, ⟨0, 0, 5, 100⟩, ⟨0, 0, 5, 100⟩, ⟨0, 0, 5, 100⟩⟩
          [] ⟨7, 3⟩).power.max_storage) :=
  ⟨by decide,
    (update_resources_storage_bounds
      ⟨⟨0, 0, 5, 100⟩, ⟨0, 0, 5, 100⟩, ⟨0, 0, 5, 100⟩, ⟨0, 0, 5, 100⟩⟩
      [] ⟨7, 3⟩ (by decide) (by decide) (by decide) (by decide)).1⟩

/-! ### C5: happiness bound -/

/-- C5.  One happiness tick always lands in `[0, 1]`, whatever the
resources, population, economy, time delta and prior happiness: the
smoothed value is clamped to `[0, 1]` before being stored. -/
theorem update_happiness_bounds (h : ℚ) (res : Resources)
    (pop : Population) (eco : Economy) (dt : ℚ) :
    0 ≤ update_happiness h res pop eco dt ∧
      update_happiness h res pop eco dt ≤ 1 := by
  simp only [update_happiness]
  constructor
  · exact le_min (le_trans (by norm_num) (le_max_right _ _)) (by norm_num)
  · exact le_trans (min_le_right _ _) (by norm_num)

/-! ### C6: economy tick -/

/-- C6.  One economy tick computes `income = total + 2·employed`, adds
`trunc(income·tax_rate) − expenses` to the funds (the tax rate scales
only the income), and on `total = 100, employed = 50, tax_rate = 0.1`
yields `income = 200`, `expenses = 50` and a funds delta of `−30`. -/
theorem update_economy_spec :
    (∀ (pop : Population) (eco : Economy),
      (update_economy pop eco).income = pop.total + 2 * pop.employed) ∧
    (∀ (pop : Population) (eco : Economy),
      (update_economy pop eco).funds = eco.funds +
        (truncToInt (((update_economy pop eco).income : ℚ) * eco.tax_rate) -
          (update_economy pop eco).expenses)) ∧
    (∀ funds income0 expenses0 : ℤ,
      update_economy { total := 100, employed := 50 }
          { funds := funds, income := income0, expenses := expenses0,
            tax_rate := 0.1 } =
        { funds := funds - 30, income := 200, expenses := 50,
          tax_rate := 0.1 }) := by
  refine ⟨?_, ?_, ?_⟩
  · intro pop eco
    show truncToInt ((pop.total : ℚ) * 1.0 + (pop.employed : ℚ) * 2.0) = _
    rw [show (pop.total : ℚ) * 1.0 + (pop.employed : ℚ) * 2.0 =
      ((pop.total + 2 * pop.employed : ℤ) : ℚ) by push_cast; ring]
    exact truncToInt_intCast _
  · intro pop eco
    rfl
  · intro funds income0 expenses0
    have e1 : truncToInt (((100 : ℤ) : ℚ) * 1.0 + ((50 : ℤ) : ℚ) * 2.0)
        = (200 : ℤ) := by
      rw [show ((100 : ℤ) : ℚ) * 1.0 + ((50 : ℤ) : ℚ) * 2.0 =
        ((200 : ℤ) : ℚ) by norm_num]
      exact truncToInt_intCast _
    have e2 : truncToInt (((100 : ℤ) : ℚ) * 0.5) = (50 : ℤ) := by
      rw [show ((100 : ℤ) : ℚ) * 0.5 = ((50 : ℤ) : ℚ) by norm_num]
      exact truncToInt_intCast _
    have e3 : truncToInt (((200 : ℤ) : ℚ) * 0.1) = (20 : ℤ) := by
      rw [show ((200 : ℤ) : ℚ) * 0.1 = ((20 : ℤ) : ℚ) by norm_num]
      exact truncToInt_intCast _
    simp only [update_economy, e1, e2, e3]
    simp [Economy.mk.injEq]
    omega

/-! ### C7: consumption is truncated, not rounded -/

/-- Counterexample to C7 as stated: at `total = 15` the code computes
`(15 · 0.1) as i32 = 1`, not `round(1.5) = 2`. -/
theorem update_resources_consumption_counterexample : ¬ ClaimC7Statement := by
  intro h
  obtain ⟨h1, -, -, -⟩ :=
    h ⟨⟨0, 0, 0, 0⟩, ⟨0, 0, 0, 0⟩, ⟨0, 0, 0, 0⟩, ⟨0, 0, 0, 0⟩⟩ []
      ⟨15, 0⟩
  have hcode :
      (update_resources
        ⟨⟨0, 0, 0, 0⟩, ⟨0, 0, 0, 0⟩, ⟨0, 0, 0, 0⟩, ⟨0, 0, 0, 0⟩⟩ []
        ⟨15, 0⟩).power.consumption = 1 := by
    show truncToInt (((15 : ℤ) : ℚ) * 0.1) = 1
    rw [show ((15 : ℤ) : ℚ) * 0.1 = ((15 : ℤ) : ℚ) / ((10 : ℕ) : ℚ) by
      norm_num]
    rw [truncToInt_intCast_div_natCast]
    decide
  have hround : round (((15 : ℤ) : ℚ) * 0.1) = 2 := by
    norm_num [round_eq]
  rw [hcode] at h1
  rw [hround] at h1
  exact absurd h1 (by decide)

/-- C7 amended: each consumption is the population-proportional value
truncated toward zero — `power = water = total tdiv 10` and
`goods = services = total tdiv 20`. -/
theorem update_resources_consumption (res : Resources)
    (cells : List TownCell) (pop : Population) :
    (update_resources res cells pop).power.consumption = pop.total.tdiv 10 ∧
    (update_resources res cells pop).water.consumption = pop.total.tdiv 10 ∧
    (update_resources res cells pop).goods.consumption = pop.total.tdiv 20 ∧
    (update_resources res cells pop).services.consumption =
      pop.total.tdiv 20 := by
  have h10 : (pop.total : ℚ) * 0.1 = (pop.total : ℚ) / ((10 : ℕ) : ℚ) := by
    push_cast
    ring
  have h20 : (pop.total : ℚ) * 0.05 = (pop.total : ℚ) / ((20 : ℕ) : ℚ) := by
    push_cast
    ring
  refine ⟨?_, ?_, ?_, ?_⟩
  · show truncToInt ((pop.total : ℚ) * 0.1) = _
    rw [h10, truncToInt_intCast_div_natCast]
    norm_cast
  · show truncToInt ((pop.total : ℚ) * 0.1) = _
    rw [h10, truncToInt_intCast_div_natCast]
    norm_cast
  · show truncToInt ((pop.total : ℚ) * 0.05) = _
    rw [h20, truncToInt_intCast_div_natCast]
    norm_cast
  · show truncToInt ((pop.total : ℚ) * 0.05) = _
    rw [h20, truncToInt_intCast_div_natCast]
    norm_cast

/-! ### C3: resident capacity -/

/-- Counterexample to C3 as stated: along the residential-count trace
`[1, 1, 1, 1, 1, 0]` the first five attempts fill the single zone to its
capacity of five citizens; at the sixth attempt the zone count has
dropped to `0`, the spawner correctly refuses to spawn, but the five
live citizens exceed `5 × 0`. -/
theorem spawn_citizens_capacity_counterexample : ¬ ClaimC3Statement := by
  intro h
  have := h [1, 1, 1, 1, 1, 0] (0, 5) (by decide)
  omega

/-- C3 amended: a spawn attempt is a no-op at or above the
`5 × residential` capacity and spawns exactly one citizen below it, so
the post-attempt count never exceeds the larger of the pre-attempt count
and the capacity measured at the attempt; in particular the capacity
bound, once satisfied, is preserved by every attempt. -/
theorem spawn_citizens_capacity (count r : ℕ) :
    (5 * r ≤ count → spawnCitizensStep count r = count) ∧
    (count < 5 * r → spawnCitizensStep count r = count + 1) ∧
    spawnCitizensStep count r ≤ max count (5 * r) ∧
    (count ≤ 5 * r → spawnCitizensStep count r ≤ 5 * r) := by
  unfold spawnCitizensStep
  dsimp only
  split
  · omega
  · split <;> omega

/-- Witness for C3 amended at concrete counts. -/
theorem spawn_citizens_capacity_witness :
    (5 * 1 ≤ 7 ∧ spawnCitizensStep 7 1 = 7) ∧
      (3 < 5 * 1 ∧ spawnCitizensStep 3 1 = 4) :=
  ⟨⟨by decide, (spawn_citizens_capacity 7 1).1 (by decide)⟩,
    ⟨by decide, (spawn_citizens_capacity 3 1).2.1 (by decide)⟩⟩

/-! ### C9: the `accessible` field is never maintained -/

/-- C9 evaluated at its failing input: placing a road on a freshly
created cell sets `building = Road` but leaves `accessible = false`, so
the claimed invariant `accessible ↔ building = Road` is broken by the
very first road edit (the field is initialised to `false` and no code
path ever writes it again). -/
theorem road_edit_leaves_accessible_false :
    (applyBuildingTool (setupCell (0, 0)) BuildingType.road).building =
        BuildingType.road ∧
      (applyBuildingTool (setupCell (0, 0)) BuildingType.road).accessible =
        false ∧
      ((setupCell (0, 0)).accessible = false ∧
        (setupCell (0, 0)).building = BuildingType.noBuilding) :=
  ⟨rfl, rfl, rfl, rfl⟩

/-! ### C10: vehicle path-index safety -/

/-- C10.  A vehicle is spawned only from a successful, non-empty planner
result and starts with `path_index = 0`; the invariant
`path ≠ [] ∧ path_index < path.len()` is established at spawn and
preserved by every update step (and any sequence of them); under it the
despawn test `path_index ≥ path.len() − 1` never underflows
(`path.len() ≥ 1`) and a surviving step reads `path[path_index]` and
`path[path_index + 1]` strictly in bounds. -/
theorem vehicle_path_safety :
    (∀ (r : Option (List Pos)) (v : Vehicle), spawnVehicle r = some v →
      (∃ p, r = some p ∧ p ≠ []) ∧ v.path_index = 0 ∧ VehicleInv v) ∧
    (∀ (v : Vehicle) (b : Bool) (v' : Vehicle), VehicleInv v →
      updateVehicle v b = some v' → VehicleInv v') ∧
    (∀ v : Vehicle, VehicleInv v → 1 ≤ v.path.length) ∧
    (∀ (v : Vehicle) (b : Bool) (v' : Vehicle), VehicleInv v →
      updateVehicle v b = some v' →
      v.path_index + 1 < v.path.length ∧
        (v.path.get? v.path_index).isSome ∧
        (v.path.get? (v.path_index + 1)).isSome) ∧
    (∀ (v : Vehicle) (bs : List Bool) (v' : Vehicle), VehicleInv v →
      runVehicleUpdates v bs = some v' → VehicleInv v') := by
  have hspawn : ∀ (r : Option (List Pos)) (v : Vehicle),
      spawnVehicle r = some v →
      (∃ p, r = some p ∧ p ≠ []) ∧ v.path_index = 0 ∧ VehicleInv v := by
    intro r v h
    rcases r with - | p
    · exact absurd h (by simp [spawnVehicle])
    · unfold spawnVehicle at h
      by_cases hp : p = []
      · simp [hp] at h
      · simp only [hp, if_pos, ne_eq, not_false_eq_true, if_true,
          Option.some.injEq] at h
        subst h
        exact ⟨⟨p, rfl, hp⟩, rfl,
          hp, by simpa using List.length_pos.mpr hp⟩
  have hupd : ∀ (v : Vehicle) (b : Bool) (v' : Vehicle), VehicleInv v →
      updateVehicle v b = some v' → VehicleInv v' := by
    intro v b v' hv h
    unfold updateVehicle at h
    split at h
    · exact absurd h (by simp)
    · rcases hv with ⟨hne, hlt⟩
      rename_i hcond
      simp only [Option.some.injEq] at h
      subst h
      refine ⟨hne, ?_⟩
      dsimp only
      rcases b with - | -
      · simpa using hlt
      · simp only [if_true]
        omega
  have hbound : ∀ (v : Vehicle) (b : Bool) (v' : Vehicle), VehicleInv v →
      updateVehicle v b = some v' →
      v.path_index + 1 < v.path.length ∧
        (v.path.get? v.path_index).isSome ∧
        (v.path.get? (v.path_index + 1)).isSome := by
    intro v b v' hv h
    unfold updateVehicle at h
    split at h
    · exact absurd h (by simp)
    · rename_i hcond
      have hlen : v.path_index + 1 < v.path.length := by
        rcases hv with ⟨hne, hlt⟩
        have : 1 ≤ v.path.length := List.length_pos.mpr hne
        omega
      refine ⟨hlen, ?_, ?_⟩
      · rw [List.get?_eq_getElem?, List.getElem?_eq_getElem (by omega)]
        simp
      · rw [List.get?_eq_getElem?, List.getElem?_eq_getElem hlen]
        simp
  refine ⟨hspawn, hupd, ?_, hbound, ?_⟩
  · intro v hv
    exact List.length_pos.mpr hv.1
  · intro v bs
    induction bs generalizing v with
    | nil =>
      intro v' hv h
      simp only [runVehicleUpdates, Option.some.injEq] at h
      exact h ▸ hv
    | cons b rest ih =>
      intro v' hv h
      simp only [runVehicleUpdates] at h
      rcases hu : updateVehicle v b with - | v2
      · rw [hu] at h; exact absurd h (by simp)
      · rw [hu] at h
        exact ih v2 v' (hupd v b v2 hv hu) h

/-- Witness for C10 at a concrete vehicle. -/
theorem vehicle_path_safety_witness :
    VehicleInv ⟨[((0 : ℤ), (0 : ℤ)), (1, 0)], 0⟩ ∧
      VehicleInv ⟨[((0 : ℤ), (0 : ℤ)), (1, 0)], 1⟩ :=
  ⟨by decide,
    vehicle_path_safety.2.1 ⟨[((0 : ℤ), (0 : ℤ)), (1, 0)], 0⟩ true
      ⟨[((0 : ℤ), (0 : ℤ)), (1, 0)], 1⟩ (by decide) (by decide)⟩

/-! ### C8: vehicle route endpoints -/

/-- Counterexample to C8 as stated: a `GoingHome` resident began its trip
at its workplace `(9, 10)`, whose nearest road is `(10, 10)`, but the
source takes the road nearest `citizen.home`, which is `(0, 0)`. -/
theorem vehicle_route_endpoints_counterexample : ¬ ClaimC8Statement := by
  intro h
  have := h
    [⟨(0, 0), ZoneType.noZone, BuildingType.road, false⟩,
      ⟨(10, 10), ZoneType.noZone, BuildingType.road, false⟩]
    { home := (1, 0), workplace := some (9, 10), destination := (1, 0),
      state := CitizenState.goingHome }
    (by decide)
  exact absurd this (by decide)

theorem find_nearest_road_go (pos : Pos) (rest : List TownCell) :
    ∀ best : TownCell,
      (rest.foldl
        (fun best cell =>
          if manhattan cell.position pos < manhattan best.position pos
          then cell else best) best) ∈ best :: rest ∧
      manhattan ((rest.foldl
        (fun best cell =>
          if manhattan cell.position pos < manhattan best.position pos
          then cell else best) best)).position pos ≤
        manhattan best.position pos ∧
      ∀ r ∈ rest, manhattan ((rest.foldl
        (fun best cell =>
          if manhattan cell.position pos < manhattan best.position pos
          then cell else best) best)).position pos ≤
        manhattan r.position pos := by
  induction rest with
  | nil => intro best; exact ⟨List.mem_singleton.mpr rfl, le_refl _, by simp⟩
  | cons c rest ih =>
    intro best
    simp only [List.foldl_cons]
    by_cases hc : manhattan c.position pos < manhattan best.position pos
    · rw [if_pos hc]
      obtain ⟨hmem, hle, hall⟩ := ih c
      refine ⟨?_, le_trans hle (le_of_lt hc), ?_⟩
      · rcases List.mem_cons.mp hmem with h | h
        · exact List.mem_cons.mpr (Or.inr (List.mem_cons.mpr (Or.inl h)))
        · exact List.mem_cons.mpr (Or.inr (List.mem_cons.mpr (Or.inr h)))
      · intro r hr
        rcases List.mem_cons.mp hr with h | h
        · exact h ▸ hle
        · exact hall r h
    · rw [if_neg hc]
      obtain ⟨hmem, hle, hall⟩ := ih best
      refine ⟨?_, hle, ?_⟩
      · rcases List.mem_cons.mp hmem with h | h
        · exact List.mem_cons.mpr (Or.inl h)
        · exact List.mem_cons.mpr (Or.inr (List.mem_cons.mpr (Or.inr h)))
      · intro r hr
        rcases List.mem_cons.mp hr with h | h
        · subst h
          exact le_trans hle (le_of_not_lt hc)
        · exact hall r h

theorem find_nearest_road_spec (road_cells : List TownCell) (pos : Pos)
    (c : TownCell) (h : find_nearest_road road_cells pos = some c) :
    c ∈ road_cells ∧
      ∀ r ∈ road_cells, manhattan c.position pos ≤ manhattan r.position pos := by
  rcases road_cells with - | ⟨c0, rest⟩
  · exact absurd h (by simp [find_nearest_road])
  · simp only [find_nearest_road, Option.some.injEq] at h
    obtain ⟨hmem, hle, hall⟩ := find_nearest_road_go pos rest c0
    subst h
    refine ⟨hmem, ?_⟩
    intro r hr
    rcases List.mem_cons.mp hr with h | h
    · exact h ▸ hle
    · exact hall r h

/-- C8 amended: the two route endpoints handed to the path planner are
the road cell nearest (by Manhattan distance) to the citizen's *home*
and the road cell nearest to the citizen's current destination, and the
planner is invoked between exactly those two road cells. -/
theorem spawn_vehicle_endpoints (road_cells : List TownCell) (c : Citizen)
    (size : ℕ) (s d : TownCell)
    (hs : find_nearest_road road_cells c.home = some s)
    (hd : find_nearest_road road_cells c.destination = some d) :
    vehicleRouteEndpoints road_cells c = (some s, some d) ∧
      s ∈ road_cells ∧ d ∈ road_cells ∧
      (∀ r ∈ road_cells,
        manhattan s.position c.home ≤ manhattan r.position c.home) ∧
      (∀ r ∈ road_cells,
        manhattan d.position c.destination ≤
          manhattan r.position c.destination) ∧
      spawnVehiclePath road_cells c size =
        findPath s.position d.position (isRoadPred road_cells) size := by
  obtain ⟨hsm, hsle⟩ := find_nearest_road_spec road_cells c.home s hs
  obtain ⟨hdm, hdle⟩ := find_nearest_road_spec road_cells c.destination d hd
  refine ⟨?_, hsm, hdm, hsle, hdle, ?_⟩
  · unfold vehicleRouteEndpoints
    rw [hs, hd]
  · unfold spawnVehiclePath
    rw [hs, hd]

/-- Witness for C8 amended at a concrete road list and citizen. -/
theorem spawn_vehicle_endpoints_witness :
    (find_nearest_road
        [⟨((0 : ℤ), (0 : ℤ)), ZoneType.noZone, BuildingType.road, false⟩,
          ⟨(3, 0), ZoneType.noZone, BuildingType.road, false⟩]
        ((1 : ℤ), (0 : ℤ)) =
      some ⟨((0 : ℤ), (0 : ℤ)), ZoneType.noZone, BuildingType.road, false⟩) ∧
    vehicleRouteEndpoints
        [⟨((0 : ℤ), (0 : ℤ)), ZoneType.noZone, BuildingType.road, false⟩,
          ⟨(3, 0), ZoneType.noZone, BuildingType.road, false⟩]
        { home := ((1 : ℤ), (0 : ℤ)), workplace := none,
          destination := (3, 1), state := CitizenState.shopping } =
      (some ⟨((0 : ℤ), (0 : ℤ)), ZoneType.noZone, BuildingType.road, false⟩,
        some ⟨(3, 0), ZoneType.noZone, BuildingType.road, false⟩) :=
  ⟨by decide,
    (spawn_vehicle_endpoints
      [⟨((0 : ℤ), (0 : ℤ)), ZoneType.noZone, BuildingType.road, false⟩,
        ⟨(3, 0), ZoneType.noZone, BuildingType.road, false⟩]
      { home := ((1 : ℤ), (0 : ℤ)), workplace := none,
        destination := (3, 1), state := CitizenState.shopping }
      4
      ⟨((0 : ℤ), (0 : ℤ)), ZoneType.noZone, BuildingType.road, false⟩
      ⟨(3, 0), ZoneType.noZone, BuildingType.road, false⟩
      (by decide) (by decide)).1⟩

/-! ### Association-list and heap lemmas -/

theorem alookup_cons {α : Type} (q : Pos) (v : α) (l : List (Pos × α))
    (p : Pos) :
    alookup ((q, v) :: l) p = if p = q then some v else alookup l p := rfl

theorem alookup_eq_none {α : Type} :
    ∀ (l : List (Pos × α)) (p : Pos),
      alookup l p = none ↔ p ∉ l.map Prod.fst := by
  intro l p
  induction l with
  | nil => simp [alookup]
  | cons e rest ih =>
    rcases e with ⟨q, v⟩
    by_cases h : p = q
    · subst h
      simp [alookup_cons]
    · simp [alookup_cons, h, ih]

theorem alookup_isSome_mem {α : Type} {l : List (Pos × α)} {p : Pos} {v : α}
    (h : alookup l p = some v) : p ∈ l.map Prod.fst := by
  by_contra hmem
  rw [← alookup_eq_none l p] at hmem
  rw [h] at hmem
  exact Option.noConfusion hmem

theorem extractMin_eq_none : ∀ l : List (Pos × ℕ),
    extractMin l = none ↔ l = [] := by
  intro l
  cases l with
  | nil => simp [extractMin]
  | cons e rest =>
    simp only [extractMin]
    rcases h : extractMin rest with - | ⟨m, r⟩
    · simp
    · dsimp only
      split <;> simp

theorem extractMin_perm : ∀ (l : List (Pos × ℕ)) (e : Pos × ℕ)
    (rest : List (Pos × ℕ)), extractMin l = some (e, rest) →
    l.Perm (e :: rest) := by
  intro l
  induction l with
  | nil => intro e rest h; exact absurd h (by simp [extractMin])
  | cons a tail ih =>
    intro e rest h
    simp only [extractMin] at h
    rcases htail : extractMin tail with - | ⟨m, r⟩
    · rw [htail] at h
      simp only [Option.some.injEq, Prod.mk.injEq] at h
      obtain ⟨he, hr⟩ := h
      rw [extractMin_eq_none] at htail
      subst he; subst hr; subst htail
      rfl
    · rw [htail] at h
      dsimp only at h
      split at h
      · simp only [Option.some.injEq, Prod.mk.injEq] at h
        obtain ⟨he, hr⟩ := h
        subst he; subst hr
        rfl
      · simp only [Option.some.injEq, Prod.mk.injEq] at h
        obtain ⟨he, hr⟩ := h
        subst he; subst hr
        have := ih m r htail
        exact (this.cons a).trans (List.Perm.swap m a r)

theorem extractMin_min : ∀ (l : List (Pos × ℕ)) (e : Pos × ℕ)
    (rest : List (Pos × ℕ)), extractMin l = some (e, rest) →
    ∀ x ∈ l, e.2 ≤ x.2 := by
  intro l
  induction l with
  | nil => intro e rest h; exact absurd h (by simp [extractMin])
  | cons a tail ih =>
    intro e rest h x hx
    simp only [extractMin] at h
    rcases htail : extractMin tail with - | ⟨m, r⟩
    · rw [htail] at h
      simp only [Option.some.injEq, Prod.mk.injEq] at h
      rw [extractMin_eq_none] at htail
      subst htail
      obtain ⟨he, -⟩ := h
      subst he
      rcases List.mem_cons.mp hx with hxa | hxr
      · exact hxa ▸ le_refl _
      · exact absurd hxr (by simp)
    · rw [htail] at h
      dsimp only at h
      split at h
      · rename_i hle
        simp only [Option.some.injEq, Prod.mk.injEq] at h
        obtain ⟨he, -⟩ := h
        subst he
        rcases List.mem_cons.mp hx with hxa | hxr
        · exact hxa ▸ le_refl _
        · exact le_trans hle (ih m r htail x hxr)
      · rename_i hgt
        simp only [Option.some.injEq, Prod.mk.injEq] at h
        obtain ⟨he, -⟩ := h
        subst he
        rcases List.mem_cons.mp hx with hxa | hxr
        · subst hxa
          exact le_of_not_le hgt
        · exact ih m r htail x hxr

theorem perm_mem_rest {l rest : List (Pos × ℕ)} {e x : Pos × ℕ}
    (hperm : l.Perm (e :: rest)) (hx : x ∈ l) (hne : x ≠ e) : x ∈ rest := by
  have := hperm.mem_iff.mp hx
  rcases List.mem_cons.mp this with h | h
  · exact absurd h hne
  · exact h

/-! ### Manhattan-distance and neighbourhood lemmas -/

theorem manhattan_self (p : Pos) : manhattan p p = 0 := by
  simp [manhattan]

theorem manhattan_triangle (a b c : Pos) :
    manhattan a c ≤ manhattan a b + manhattan b c := by
  unfold manhattan
  omega

theorem manhattan_adj {a b : Pos} (h : orthoAdj a b) : manhattan a b = 1 := by
  rcases a with ⟨x, y⟩
  unfold orthoAdj orthoNeighbors at h
  simp only [List.mem_cons, List.not_mem_nil, or_false] at h
  rcases h with h | h | h | h <;>
    (subst h; unfold manhattan; dsimp only; omega)

theorem not_mem_orthoNeighbors_self (p : Pos) : p ∉ orthoNeighbors p := by
  rcases p with ⟨x, y⟩
  intro h
  unfold orthoNeighbors at h
  simp only [List.mem_cons, List.not_mem_nil, or_false, Prod.mk.injEq] at h
  omega

theorem manhattan_le_adjChain :
    ∀ {p : Pos} {n : ℕ} {q : Pos}, AdjChain p n q → manhattan p q ≤ n := by
  intro p n q h
  induction h with
  | refl => simp [manhattan_self]
  | @step n2 q2 q3 hchain hadj ih =>
    calc manhattan p q3 ≤ manhattan p q2 + manhattan q2 q3 :=
        manhattan_triangle _ _ _
      _ ≤ n2 + 1 := by rw [manhattan_adj hadj]; omega

/-! ### `ValidPath` and its step-counted mirror `ReachN` -/

theorem validPath_singleton (start : Pos) (acc : Pos → Bool) (size : ℕ) :
    ValidPath start start acc size [start] := by
  refine ⟨by simp, rfl, rfl, by simp, by simp⟩

theorem validPath_snoc {start p : Pos} {acc : Pos → Bool} {size : ℕ}
    {π : List Pos} (h : ValidPath start p acc size π) {q : Pos}
    (hadj : orthoAdj p q) (hq : validCell acc size q) :
    ValidPath start q acc size (π ++ [q]) := by
  obtain ⟨hne, hhead, hlast, hchain, htail⟩ := h
  rcases π with - | ⟨a, t⟩
  · exact absurd rfl hne
  · refine ⟨by simp, by simpa using hhead,
      by rw [show a :: t ++ [q] = (a :: t) ++ [q] from rfl,
        List.getLast?_concat], ?_, ?_⟩
    · rw [List.chain'_append]
      refine ⟨hchain, by simp, ?_⟩
      intro x hx y hy
      simp only [List.head?_cons, Option.mem_def, Option.some.injEq] at hy
      rw [hlast] at hx
      simp only [Option.mem_def, Option.some.injEq] at hx
      subst hx; subst hy
      exact hadj
    · intro r hr
      simp only [List.cons_append, List.tail_cons, List.mem_append,
        List.mem_singleton] at hr
      rcases hr with hr | hr
      · exact htail r hr
      · exact hr ▸ hq

theorem validPath_snoc_inv {start goal q : Pos} {acc : Pos → Bool}
    {size : ℕ} {π : List Pos}
    (h : ValidPath start goal acc size (π ++ [q])) (hπ : π ≠ []) :
    ∃ p, π.getLast? = some p ∧ ValidPath start p acc size π ∧
      orthoAdj p q ∧ validCell acc size q ∧ goal = q := by
  obtain ⟨hne, hhead, hlast, hchain, htail⟩ := h
  rcases π with - | ⟨a, t⟩
  · exact absurd rfl hπ
  · obtain ⟨hc1, hc2, hlink⟩ := List.chain'_append.mp hchain
    obtain ⟨p, hp⟩ : ∃ p, (a :: t).getLast? = some p := ⟨_, rfl⟩
    have hgq : goal = q := by
      have h2 : ((a :: t) ++ [q]).getLast? = some q := List.getLast?_concat _
      exact Option.some_injective _ (hlast.symm.trans h2)
    have hadj : orthoAdj p q := by
      refine hlink p ?_ q ?_
      · rw [hp]; rfl
      · rfl
    have hq : validCell acc size q := by
      refine htail q ?_
      simp
    refine ⟨p, hp, ⟨by simp, by simpa using hhead, hp, hc1, ?_⟩, hadj, hq, hgq⟩
    intro r hr
    refine htail r ?_
    simp only [List.cons_append, List.tail_cons, List.mem_append]
    exact Or.inl hr

theorem reachN_of_validPath {start : Pos} {acc : Pos → Bool}
    {size : ℕ} :
    ∀ (π : List Pos) {goal : Pos}, ValidPath start goal acc size π →
      ReachN start acc size (steps π) goal := by
  intro π
  induction π using List.reverseRecOn with
  | nil => intro goal h; exact absurd rfl h.1
  | append_singleton ρ q ih =>
    intro goal h
    rcases eq_or_ne ρ [] with hρ | hρ
    · subst hρ
      obtain ⟨-, hhead, hlast, -, -⟩ := h
      simp only [List.nil_append, List.head?_cons,
        Option.some.injEq] at hhead
      simp only [List.nil_append, List.getLast?_singleton,
        Option.some.injEq] at hlast
      show ReachN start acc size 0 goal
      rw [← hlast, hhead]
      exact ReachN.refl
    · obtain ⟨p, hplast, hvp, hadj, hvq, hgq⟩ := validPath_snoc_inv h hρ
      have hstep := ReachN.step (ih hvp) hadj hvq
      have harith : steps ρ + 1 = steps (ρ ++ [q]) := by
        have := List.length_pos.mpr hρ
        simp only [steps, List.length_append, List.length_singleton]
        omega
      rw [← hgq] at hstep
      exact harith ▸ hstep

theorem validPath_of_reachN {start : Pos} {acc : Pos → Bool} {size : ℕ} :
    ∀ {k : ℕ} {q : Pos}, ReachN start acc size k q →
      ∃ π, ValidPath start q acc size π ∧ π.length = k + 1 := by
  intro k q h
  induction h with
  | refl => exact ⟨[start], validPath_singleton start acc size, rfl⟩
  | @step k2 p2 q2 hreach hadj hvalid ih =>
    obtain ⟨π, hπ, hlen⟩ := ih
    exact ⟨π ++ [q2], validPath_snoc hπ hadj hvalid, by simp [hlen]⟩

/-! ### Single-relaxation lemmas -/

theorem mem_domainD_of_inBounds {p : Pos} {size : ℕ} (h : inBounds p size)
    (start : Pos) : p ∈ domainD start size := by
  rcases p with ⟨x, y⟩
  obtain ⟨hx0, hxs, hy0, hys⟩ := h
  refine Finset.mem_insert.mpr (Or.inr ?_)
  refine Finset.mem_image.mpr ⟨(x.toNat, y.toNat), ?_, ?_⟩
  · refine Finset.mem_product.mpr ⟨?_, ?_⟩ <;> refine Finset.mem_range.mpr ?_
    · omega
    · omega
  · simp only [Prod.mk.injEq]
    constructor <;> omega

theorem start_mem_domainD (start : Pos) (size : ℕ) :
    start ∈ domainD start size :=
  Finset.mem_insert_self start (boundsFinset size)

theorem relaxNeighbor_trichotomy (goal : Pos) (acc : Pos → Bool)
    (size : ℕ) (cur : Pos) (curG : ℕ) (s : AState) (nb : Pos) :
    (relaxNeighbor goal acc size cur curG s nb = s ∧
      ¬ validCell acc size nb) ∨
    (relaxNeighbor goal acc size cur curG s nb = s ∧ validCell acc size nb ∧
      ∃ old, alookup s.gmap nb = some old ∧ old ≤ curG + 1) ∨
    (validCell acc size nb ∧
      (∀ old, alookup s.gmap nb = some old → curG + 1 < old) ∧
      relaxNeighbor goal acc size cur curG s nb =
        pushNeighbor goal cur curG s nb) := by
  unfold relaxNeighbor
  by_cases hv : inBounds nb size ∧ acc nb = true
  · rw [if_pos hv]
    rcases hl : alookup s.gmap nb with - | old
    · right; right
      refine ⟨hv, ?_, rfl⟩
      intro o ho
      exact Option.noConfusion ho
    · by_cases hlt : curG + 1 < old
      · right; right
        dsimp only
        rw [if_pos hlt]
        refine ⟨hv, ?_, rfl⟩
        intro o ho
        injection ho with ho
        omega
      · right; left
        dsimp only
        rw [if_neg hlt]
        exact ⟨rfl, hv, old, rfl, by omega⟩
  · left
    exact ⟨if_neg hv, hv⟩

theorem relax_gmap_mono {goal : Pos} {acc : Pos → Bool} {size : ℕ}
    {cur : Pos} {curG : ℕ} {s : AState} {nb : Pos} :
    ∀ p w, alookup s.gmap p = some w →
      ∃ w', alookup
        (relaxNeighbor goal acc size cur curG s nb).gmap p = some w' ∧
        w' ≤ w := by
  intro p w hw
  rcases relaxNeighbor_trichotomy goal acc size cur curG s nb with
    ⟨heq, -⟩ | ⟨heq, -⟩ | ⟨-, hcond, heq⟩
  · rw [heq]; exact ⟨w, hw, le_refl _⟩
  · rw [heq]; exact ⟨w, hw, le_refl _⟩
  · rw [heq]
    unfold pushNeighbor
    by_cases hp : p = nb
    · subst hp
      have := hcond w hw
      exact ⟨curG + 1, by simp [alookup_cons], by omega⟩
    · exact ⟨w, by simpa [alookup_cons, hp] using hw, le_refl _⟩

theorem foldInv_relax {start goal : Pos} {acc : Pos → Bool} {size : ℕ}
    {cur : Pos} {curG : ℕ} {s : AState} {nb : Pos}
    (hinv : FoldInv start goal acc size cur curG s)
    (hnb : nb ∈ orthoNeighbors cur) :
    FoldInv start goal acc size cur curG
        (relaxNeighbor goal acc size cur curG s nb) ∧
      (validCell acc size nb →
        ∃ w, alookup
          (relaxNeighbor goal acc size cur curG s nb).gmap nb = some w ∧
          w ≤ curG + 1) := by
  rcases relaxNeighbor_trichotomy goal acc size cur curG s nb with
    ⟨heq, hnv⟩ | ⟨heq, hv, old, hl, hle⟩ | ⟨hv, hcond, heq⟩
  · rw [heq]
    exact ⟨hinv, fun h => absurd h hnv⟩
  · rw [heq]
    exact ⟨hinv, fun _ => ⟨old, hl, hle⟩⟩
  · rw [heq]
    have hnbcur : nb ≠ cur := by
      intro h
      exact not_mem_orthoNeighbors_self cur (h ▸ hnb)
    have hnbstart : nb ≠ start := by
      intro h
      subst h
      exact absurd (hcond 0 hinv.gstart) (by omega)
    constructor
    · refine ⟨?_, ?_, ?_, ?_, ?_, ?_, ?_, ?_, ?_, ?_⟩
      · -- ent
        intro e he
        rcases List.mem_cons.mp he with he | he
        · subst he
          exact ⟨curG + 1, by simp [pushNeighbor, alookup_cons],
            le_refl _⟩
        · obtain ⟨v, hv2, hvf⟩ := hinv.ent e he
          by_cases hp : e.1 = nb
          · rw [hp] at hv2
            have hlt := hcond v hv2
            refine ⟨curG + 1, ?_, ?_⟩
            · simp [pushNeighbor, alookup_cons, hp]
            · rw [hp]
              rw [hp] at hvf
              omega
          · exact ⟨v, by simpa [pushNeighbor, alookup_cons, hp] using hv2,
              hvf⟩
      · -- gstart
        have : start ≠ nb := fun h => hnbstart h.symm
        simpa [pushNeighbor, alookup_cons, this] using hinv.gstart
      · -- inv8
        intro p v hpv hpcur
        by_cases hp : p = nb
        · subst hp
          have hveq : curG + 1 = v := by
            simpa [pushNeighbor, alookup_cons] using hpv
          subst hveq
          left
          exact ⟨(curG + 1) + manhattan p goal,
            List.mem_cons.mpr (Or.inl rfl), le_refl _⟩
        · have hpv' : alookup s.gmap p = some v := by
            simpa [pushNeighbor, alookup_cons, hp] using hpv
          rcases hinv.inv8 p v hpv' hpcur with ⟨f, hmem, hf⟩ | hrel
          · exact Or.inl ⟨f, List.mem_cons.mpr (Or.inr hmem), hf⟩
          · right
            intro nb2 hnb2 hvnb2
            obtain ⟨w, hw, hwle⟩ := hrel nb2 hnb2 hvnb2
            by_cases h2 : nb2 = nb
            · subst h2
              have hlt := hcond w hw
              exact ⟨curG + 1, by simp [pushNeighbor, alookup_cons],
                by omega⟩
            · exact ⟨w, by simpa [pushNeighbor, alookup_cons, h2] using hw,
                hwle⟩
      · -- cf
        intro p q hpq
        by_cases hp : p = nb
        · subst hp
          have hq : cur = q := by
            simpa [pushNeighbor, alookup_cons] using hpq
          subst hq
          refine ⟨curG + 1, curG, by simp [pushNeighbor, alookup_cons],
            ?_, by omega, hnb, hv, hnbstart⟩
          have : cur ≠ p := fun h => hnbcur h.symm
          simpa [pushNeighbor, alookup_cons, this] using hinv.curg
        · have hpq' : alookup s.came p = some q := by
            simpa [pushNeighbor, alookup_cons, hp] using hpq
          obtain ⟨vp, vq, hvp, hvq, hlt, hadj, hvalid, hps⟩ :=
            hinv.cf p q hpq'
          have hvp' : alookup (pushNeighbor goal cur curG s nb).gmap p =
              some vp := by
            simpa [pushNeighbor, alookup_cons, hp] using hvp
          by_cases hq : q = nb
          · subst hq
            have hlt2 := hcond vq hvq
            exact ⟨vp, curG + 1, hvp',
              by simp [pushNeighbor, alookup_cons], by omega, hadj,
              hvalid, hps⟩
          · exact ⟨vp, vq, hvp',
              by simpa [pushNeighbor, alookup_cons, hq] using hvq, hlt,
              hadj, hvalid, hps⟩
      · -- cf2
        intro p v hpv hps
        by_cases hp : p = nb
        · subst hp
          exact ⟨cur, by simp [pushNeighbor, alookup_cons]⟩
        · have hpv' : alookup s.gmap p = some v := by
            simpa [pushNeighbor, alookup_cons, hp] using hpv
          obtain ⟨q, hq⟩ := hinv.cf2 p v hpv' hps
          exact ⟨q, by simpa [pushNeighbor, alookup_cons, hp] using hq⟩
      · -- gbound
        intro p v hpv
        have hclen : (pushNeighbor goal cur curG s nb).came.length =
            s.came.length + 1 := by
          simp [pushNeighbor]
        rw [hclen]
        by_cases hp : p = nb
        · subst hp
          have hveq : curG + 1 = v := by
            simpa [pushNeighbor, alookup_cons] using hpv
          have := hinv.gbound cur curG hinv.curg
          omega
        · have hpv' : alookup s.gmap p = some v := by
            simpa [pushNeighbor, alookup_cons, hp] using hpv
          have := hinv.gbound p v hpv'
          omega
      · -- gdom
        intro p v hpv
        by_cases hp : p = nb
        · subst hp
          exact mem_domainD_of_inBounds hv.1 start
        · have hpv' : alookup s.gmap p = some v := by
            simpa [pushNeighbor, alookup_cons, hp] using hpv
          exact hinv.gdom p v hpv'
      · -- gubd
        intro p v hpv
        have hkeys : (pushNeighbor goal cur curG s nb).gmap.map Prod.fst =
            nb :: s.gmap.map Prod.fst := by
          simp [pushNeighbor]
        by_cases hmem : nb ∈ s.gmap.map Prod.fst
        · have hkc : keyCount (pushNeighbor goal cur curG s nb).gmap =
              keyCount s.gmap := by
            unfold keyCount
            rw [hkeys, List.dedup_cons_of_mem hmem]
          rw [hkc]
          by_cases hp : p = nb
          · subst hp
            have hveq : curG + 1 = v := by
              simpa [pushNeighbor, alookup_cons] using hpv
            rcases ho : alookup s.gmap p with - | old
            · rw [alookup_eq_none] at ho
              exact absurd hmem ho
            · have h1 := hcond old ho
              have h2 := hinv.gubd p old ho
              omega
          · have hpv' : alookup s.gmap p = some v := by
              simpa [pushNeighbor, alookup_cons, hp] using hpv
            exact hinv.gubd p v hpv'
        · have hkc : keyCount (pushNeighbor goal cur curG s nb).gmap =
              keyCount s.gmap + 1 := by
            unfold keyCount
            rw [hkeys, List.dedup_cons_of_not_mem hmem]
            rfl
          rw [hkc]
          by_cases hp : p = nb
          · subst hp
            have hveq : curG + 1 = v := by
              simpa [pushNeighbor, alookup_cons] using hpv
            have := hinv.gubd cur curG hinv.curg
            omega
          · have hpv' : alookup s.gmap p = some v := by
              simpa [pushNeighbor, alookup_cons, hp] using hpv
            have := hinv.gubd p v hpv'
            omega
      · -- gnp
        intro v2 hv2
        by_cases hg : goal = nb
        · refine ⟨(curG + 1) + manhattan nb goal, ?_⟩
          rw [hg]
          exact List.mem_cons.mpr (Or.inl rfl)
        · have hv2' : alookup s.gmap goal = some v2 := by
            simpa [pushNeighbor, alookup_cons, hg] using hv2
          obtain ⟨f, hf⟩ := hinv.gnp v2 hv2'
          exact ⟨f, List.mem_cons.mpr (Or.inr hf)⟩
      · -- curg
        have : cur ≠ nb := fun h => hnbcur h.symm
        simpa [pushNeighbor, alookup_cons, this] using hinv.curg
    · intro _hv
      exact ⟨curG + 1, by simp [pushNeighbor, alookup_cons], le_refl _⟩

/-! ### Expanding a popped node preserves the invariant -/

theorem foldRelax_gmap_mono {goal : Pos} {acc : Pos → Bool} {size : ℕ}
    {cur : Pos} {curG : ℕ} :
    ∀ (nbs : List Pos) (t : AState) (p : Pos) (w : ℕ),
      alookup t.gmap p = some w →
      ∃ w', alookup
        (nbs.foldl (relaxNeighbor goal acc size cur curG) t).gmap p =
          some w' ∧ w' ≤ w := by
  intro nbs
  induction nbs with
  | nil => intro t p w hw; exact ⟨w, hw, le_refl _⟩
  | cons a rest ih =>
    intro t p w hw
    obtain ⟨w1, hw1, hle1⟩ :=
      @relax_gmap_mono goal acc size cur curG t a p w hw
    obtain ⟨w2, hw2, hle2⟩ :=
      ih (relaxNeighbor goal acc size cur curG t a) p w1 hw1
    exact ⟨w2, hw2, le_trans hle2 hle1⟩

theorem foldRelax_spec {start goal : Pos} {acc : Pos → Bool} {size : ℕ}
    {cur : Pos} {curG : ℕ} :
    ∀ (nbs : List Pos) (t : AState),
      (∀ nb ∈ nbs, nb ∈ orthoNeighbors cur) →
      FoldInv start goal acc size cur curG t →
      FoldInv start goal acc size cur curG
        (nbs.foldl (relaxNeighbor goal acc size cur curG) t) ∧
      (∀ nb ∈ nbs, validCell acc size nb →
        ∃ w, alookup
          (nbs.foldl (relaxNeighbor goal acc size cur curG) t).gmap nb =
            some w ∧ w ≤ curG + 1) := by
  intro nbs
  induction nbs with
  | nil => intro t hsub hinv; exact ⟨hinv, by simp⟩
  | cons a rest ih =>
    intro t hsub hinv
    obtain ⟨hinv1, hfact⟩ :=
      foldInv_relax hinv (hsub a (List.mem_cons.mpr (Or.inl rfl)))
    obtain ⟨hinv2, hrest⟩ :=
      ih (relaxNeighbor goal acc size cur curG t a)
        (fun nb hnb => hsub nb (List.mem_cons.mpr (Or.inr hnb))) hinv1
    refine ⟨hinv2, ?_⟩
    intro nb hnb hvnb
    rcases List.mem_cons.mp hnb with hnb | hnb
    · subst hnb
      obtain ⟨w, hw, hwle⟩ := hfact hvnb
      obtain ⟨w', hw', hwle'⟩ := foldRelax_gmap_mono rest _ nb w hw
      exact ⟨w', by simpa using hw', by omega⟩
    · exact hrest nb hnb hvnb

theorem inv_expand {start goal : Pos} {acc : Pos → Bool} {size : ℕ}
    {s : AState} {cur : Pos} {fcur : ℕ} {rest : List (Pos × ℕ)}
    (hinv : Inv start goal acc size s)
    (hpop : extractMin s.frontier = some ((cur, fcur), rest))
    (hne : cur ≠ goal) :
    Inv start goal acc size
      (expandNode goal acc size cur { s with frontier := rest }) := by
  have hperm := extractMin_perm s.frontier (cur, fcur) rest hpop
  have hmem : (cur, fcur) ∈ s.frontier :=
    hperm.mem_iff.mpr (List.mem_cons.mpr (Or.inl rfl))
  obtain ⟨curG, hcurG, hcfle⟩ := hinv.ent (cur, fcur) hmem
  have hfold : FoldInv start goal acc size cur curG
      { s with frontier := rest } := by
    refine ⟨?_, hinv.gstart, ?_, hinv.cf, hinv.cf2, hinv.gbound,
      hinv.gdom, hinv.gubd, ?_, hcurG⟩
    · intro e he
      exact hinv.ent e (hperm.mem_iff.mpr (List.mem_cons.mpr (Or.inr he)))
    · intro p v hpv hpcur
      rcases hinv.inv8 p v hpv with ⟨f, hmemf, hf⟩ | hrel
      · left
        refine ⟨f, ?_, hf⟩
        refine perm_mem_rest hperm hmemf ?_
        intro hcontra
        rw [Prod.ext_iff] at hcontra
        exact hpcur hcontra.1
      · exact Or.inr hrel
    · intro v hv
      obtain ⟨f, hf⟩ := hinv.gnp v hv
      refine ⟨f, perm_mem_rest hperm hf ?_⟩
      intro hcontra
      rw [Prod.ext_iff] at hcontra
      exact hne hcontra.1.symm
  have heq : expandNode goal acc size cur { s with frontier := rest } =
      (orthoNeighbors cur).foldl (relaxNeighbor goal acc size cur curG)
        { s with frontier := rest } := by
    unfold expandNode
    rw [show ({ s with frontier := rest } : AState).gmap = s.gmap from rfl,
      hcurG]
    rfl
  rw [heq]
  obtain ⟨hfold', hdone⟩ :=
    foldRelax_spec (orthoNeighbors cur) { s with frontier := rest }
      (fun nb hnb => hnb) hfold
  refine ⟨hfold'.ent, hfold'.gstart, ?_, hfold'.cf, hfold'.cf2,
    hfold'.gbound, hfold'.gdom, hfold'.gubd, hfold'.gnp⟩
  intro p v hpv
  by_cases hp : p = cur
  · subst hp
    have hv2 : v = curG := by
      rw [hfold'.curg] at hpv
      injection hpv with hpv
      exact hpv.symm
    subst hv2
    right
    intro nb hnb hvnb
    exact hdone nb hnb hvnb
  · exact hfold'.inv8 p v hpv hp

/-! ### The frontier always guards every reachable node -/

theorem aux_reach {start goal : Pos} {acc : Pos → Bool} {size : ℕ}
    {s : AState} (hinv : Inv start goal acc size s) :
    ∀ {k : ℕ} {q : Pos}, ReachN start acc size k q →
      (∃ v, alookup s.gmap q = some v ∧ v ≤ k) ∨
      (∃ r f m, (r, f) ∈ s.frontier ∧ f ≤ m + manhattan r goal ∧
        AdjChain r (k - m) q ∧ m ≤ k) := by
  intro k q h
  induction h with
  | refl => exact Or.inl ⟨0, hinv.gstart, le_refl _⟩
  | @step k2 p2 q2 hreach hadj hvalid ih =>
    rcases ih with ⟨v, hv, hvk⟩ | ⟨r, f, m, hmem, hf, hchain, hm⟩
    · rcases hinv.inv8 p2 v hv with ⟨f, hmem, hf⟩ | hrel
      · right
        refine ⟨p2, f, k2, hmem, by omega, ?_, by omega⟩
        have harith : k2 + 1 - k2 = 1 := by omega
        rw [harith]
        exact AdjChain.step (AdjChain.refl p2) hadj
      · obtain ⟨w, hw, hwle⟩ := hrel q2 hadj hvalid
        exact Or.inl ⟨w, hw, by omega⟩
    · right
      refine ⟨r, f, m, hmem, hf, ?_, by omega⟩
      have harith : k2 + 1 - m = (k2 - m) + 1 := by omega
      rw [harith]
      exact AdjChain.step hchain hadj

theorem goal_pop_le {start goal : Pos} {acc : Pos → Bool} {size : ℕ}
    {s : AState} {fstar : ℕ} {rest : List (Pos × ℕ)}
    (hinv : Inv start goal acc size s)
    (hpop : extractMin s.frontier = some ((goal, fstar), rest))
    {k : ℕ} (hreach : ReachN start acc size k goal) :
    ∃ vg, alookup s.gmap goal = some vg ∧ vg ≤ k := by
  have hperm := extractMin_perm s.frontier (goal, fstar) rest hpop
  have hmemg : (goal, fstar) ∈ s.frontier :=
    hperm.mem_iff.mpr (List.mem_cons.mpr (Or.inl rfl))
  obtain ⟨vg, hvg, hvgf⟩ := hinv.ent (goal, fstar) hmemg
  have hms := manhattan_self goal
  refine ⟨vg, hvg, ?_⟩
  rcases aux_reach hinv hreach with ⟨v, hv, hvk⟩ | ⟨r, f, m, hmem, hf, hchain, hm⟩
  · rw [hv] at hvg
    injection hvg with hvg
    omega
  · have hman := manhattan_le_adjChain hchain
    have hminf := extractMin_min s.frontier (goal, fstar) rest hpop (r, f) hmem
    simp only at hminf hvgf
    omega

theorem frontier_empty_no_reach {start goal : Pos} {acc : Pos → Bool}
    {size : ℕ} {s : AState} (hinv : Inv start goal acc size s)
    (hempty : s.frontier = []) {k : ℕ}
    (hreach : ReachN start acc size k goal) : False := by
  rcases aux_reach hinv hreach with ⟨v, hv, -⟩ | ⟨r, f, m, hmem, -, -, -⟩
  · obtain ⟨f, hf⟩ := hinv.gnp v hv
    rw [hempty] at hf
    exact absurd hf (List.not_mem_nil _)
  · rw [hempty] at hmem
    exact absurd hmem (List.not_mem_nil _)

/-! ### Path reconstruction follows the predecessor links to the start -/

theorem reconstructGo_spec {start goal : Pos} {acc : Pos → Bool} {size : ℕ}
    {came : List (Pos × Pos)} {gmap : List (Pos × ℕ)}
    (hcf : ∀ p q, alookup came p = some q →
      ∃ vp vq, alookup gmap p = some vp ∧ alookup gmap q = some vq ∧
        vq < vp ∧ p ∈ orthoNeighbors q ∧ validCell acc size p ∧ p ≠ start)
    (hcf2 : ∀ p v, alookup gmap p = some v → p ≠ start →
      ∃ q, alookup came p = some q) :
    ∀ v : ℕ, ∀ (cur : Pos) (fuel : ℕ) (accl : List Pos),
      alookup gmap cur = some v → v + 1 ≤ fuel →
      ∃ ρ, reconstructGo came fuel cur (cur :: accl) = ρ ++ accl ∧
        ValidPath start cur acc size ρ ∧ ρ.length - 1 ≤ v := by
  intro v
  induction v using Nat.strong_induction_on with
  | _ v ih =>
    intro cur fuel accl hcur hfuel
    rcases fuel with - | fuel2
    · omega
    rcases hcame : alookup came cur with - | prev
    · have hcs : cur = start := by
        by_contra hne
        obtain ⟨q, hq⟩ := hcf2 cur v hcur hne
        rw [hcame] at hq
        exact Option.noConfusion hq
      subst hcs
      refine ⟨[cur], ?_, validPath_singleton cur acc size, by simp⟩
      simp [reconstructGo, hcame]
    · obtain ⟨vp, vq, hvp, hvq, hlt, hadj, hvalid, hps⟩ := hcf cur prev hcame
      have hvpv : vp = v := by
        rw [hcur] at hvp
        injection hvp with hvp
        exact hvp.symm
      subst hvpv
      obtain ⟨ρ, hρeq, hρpath, hρsteps⟩ :=
        ih vq hlt prev fuel2 (cur :: accl) hvq (by omega)
      have hρne : ρ ≠ [] := hρpath.1
      have hρpos : 0 < ρ.length := List.length_pos.mpr hρne
      refine ⟨ρ ++ [cur], ?_, validPath_snoc hρpath hadj hvalid, ?_⟩
      · have hstep : reconstructGo came (fuel2 + 1) cur (cur :: accl) =
            reconstructGo came fuel2 prev (prev :: cur :: accl) := by
          simp [reconstructGo, hcame]
        rw [hstep, hρeq, List.append_assoc]
        rfl
      · simp only [List.length_append, List.length_singleton]
        omega

theorem reconstruct_spec {start goal : Pos} {acc : Pos → Bool} {size : ℕ}
    {s : AState} (hinv : Inv start goal acc size s) {vg : ℕ}
    (hvg : alookup s.gmap goal = some vg) :
    ValidPath start goal acc size (reconstruct s.came goal) ∧
      steps (reconstruct s.came goal) ≤ vg := by
  obtain ⟨ρ, hρeq, hρpath, hρsteps⟩ :=
    @reconstructGo_spec start goal acc size s.came s.gmap hinv.cf hinv.cf2 vg goal
      (s.came.length + 1) [] hvg (by
        have := hinv.gbound goal vg hvg
        omega)
  unfold reconstruct
  rw [show (goal :: [] : List Pos) = [goal] from rfl] at hρeq
  rw [show ([goal] : List Pos) = goal :: [] from rfl, hρeq,
    List.append_nil]
  exact ⟨hρpath, hρsteps⟩

/-! ### Soundness and minimality of a returned path -/

theorem astarLoop_some_spec {start goal : Pos} {acc : Pos → Bool}
    {size : ℕ} :
    ∀ (fuel : ℕ) (s : AState), Inv start goal acc size s →
      ∀ p, astarLoop goal acc size fuel s = some p →
        ValidPath start goal acc size p ∧
        (∀ k, ReachN start acc size k goal → steps p ≤ k) := by
  intro fuel
  induction fuel with
  | zero =>
    intro s hinv p h
    exact absurd h (by simp [astarLoop])
  | succ fuel ih =>
    intro s hinv p h
    rcases hpop : extractMin s.frontier with - | ⟨⟨cur, fcur⟩, rest⟩
    · rw [astarLoop, hpop] at h
      exact absurd h (by simp)
    · rw [astarLoop, hpop] at h
      dsimp only at h
      by_cases hcur : cur = goal
      · subst hcur
        rw [if_pos rfl] at h
        injection h with h
        subst h
        have hperm := extractMin_perm s.frontier (cur, fcur) rest hpop
        have hmemg : (cur, fcur) ∈ s.frontier :=
          hperm.mem_iff.mpr (List.mem_cons.mpr (Or.inl rfl))
        obtain ⟨vg, hvg, -⟩ := hinv.ent (cur, fcur) hmemg
        obtain ⟨hpath, hsteps⟩ := reconstruct_spec hinv hvg
        refine ⟨hpath, ?_⟩
        intro k hreach
        obtain ⟨vg2, hvg2, hvg2k⟩ := goal_pop_le hinv hpop hreach
        rw [hvg] at hvg2
        injection hvg2 with hvg2
        omega
      · rw [if_neg hcur] at h
        exact ih _ (inv_expand hinv hpop hcur) p h

/-! ### The loop measure strictly decreases -/

theorem alookup_of_mem_keys {α : Type} {l : List (Pos × α)} {p : Pos}
    (h : p ∈ l.map Prod.fst) : ∃ v, alookup l p = some v := by
  rcases hv : alookup l p with - | v
  · rw [alookup_eq_none] at hv
    exact absurd h hv
  · exact ⟨v, rfl⟩

theorem keyCount_lt_card {gmap : List (Pos × ℕ)} {start : Pos} {size : ℕ}
    (hdom : ∀ p v, alookup gmap p = some v → p ∈ domainD start size)
    {nb : Pos} (hnb : alookup gmap nb = none)
    (hnbD : nb ∈ domainD start size) :
    keyCount gmap < (domainD start size).card := by
  have hsub : (gmap.map Prod.fst).dedup.toFinset ⊆
      (domainD start size).erase nb := by
    intro x hx
    rw [List.mem_toFinset, List.mem_dedup] at hx
    obtain ⟨v, hv⟩ := alookup_of_mem_keys hx
    refine Finset.mem_erase.mpr ⟨?_, hdom x v hv⟩
    intro hxnb
    subst hxnb
    rw [hv] at hnb
    exact Option.noConfusion hnb
  have hnodup : (gmap.map Prod.fst).dedup.Nodup := List.nodup_dedup _
  have hcard : keyCount gmap = (gmap.map Prod.fst).dedup.toFinset.card := by
    unfold keyCount
    exact (List.toFinset_card_of_nodup hnodup).symm
  have hle := Finset.card_le_card hsub
  have herase : ((domainD start size).erase nb).card =
      (domainD start size).card - 1 := Finset.card_erase_of_mem hnbD
  have hpos : 0 < (domainD start size).card :=
    Finset.card_pos.mpr ⟨nb, hnbD⟩
  omega

theorem phi_push_lt {start goal : Pos} {acc : Pos → Bool} {size : ℕ}
    {cur : Pos} {curG : ℕ} {t : AState} {nb : Pos}
    (hinv : FoldInv start goal acc size cur curG t)
    (hv : validCell acc size nb)
    (hcond : ∀ old, alookup t.gmap nb = some old → curG + 1 < old) :
    phi start size (pushNeighbor goal cur curG t nb) < phi start size t := by
  have hnbD : nb ∈ domainD start size := mem_domainD_of_inBounds hv.1 start
  have hkey : ∀ p : Pos, p ∈ domainD start size →
      ((alookup (pushNeighbor goal cur curG t nb).gmap p).elim
        ((domainD start size).card) id) ≤
      ((alookup t.gmap p).elim ((domainD start size).card) id) := by
    intro p hp
    by_cases hpn : p = nb
    · subst hpn
      rcases ho : alookup t.gmap p with - | old
      · have h1 := keyCount_lt_card hinv.gdom ho hnbD
        have h2 := hinv.gubd cur curG hinv.curg
        simp only [pushNeighbor, alookup_cons, if_pos rfl, ho]
        simp only [Option.elim_some, Option.elim_none, ite_true,
          eq_self_iff_true, id_eq]
        omega
      · have := hcond old ho
        simp only [pushNeighbor, alookup_cons, if_pos rfl, ho]
        simp only [Option.elim_some, ite_true, eq_self_iff_true, id]
        omega
    · have : alookup (pushNeighbor goal cur curG t nb).gmap p =
          alookup t.gmap p := by
        simp [pushNeighbor, alookup_cons, hpn]
      rw [this]
  have hstrict :
      ((alookup (pushNeighbor goal cur curG t nb).gmap nb).elim
        ((domainD start size).card) id) <
      ((alookup t.gmap nb).elim ((domainD start size).card) id) := by
    rcases ho : alookup t.gmap nb with - | old
    · have h1 := keyCount_lt_card hinv.gdom ho hnbD
      have h2 := hinv.gubd cur curG hinv.curg
      simp only [pushNeighbor, alookup_cons, if_pos rfl, ho]
      simp only [Option.elim_some, Option.elim_none, ite_true,
        eq_self_iff_true, id_eq]
      omega
    · have := hcond old ho
      simp only [pushNeighbor, alookup_cons, if_pos rfl, ho]
      simp only [Option.elim_some, ite_true, eq_self_iff_true, id]
      omega
  exact Finset.sum_lt_sum hkey ⟨nb, hnbD, hstrict⟩

theorem relax_measure {start goal : Pos} {acc : Pos → Bool} {size : ℕ}
    {cur : Pos} {curG : ℕ} {t : AState} {nb : Pos}
    (hinv : FoldInv start goal acc size cur curG t) :
    loopMeasure start size (relaxNeighbor goal acc size cur curG t nb) ≤
      loopMeasure start size t := by
  rcases relaxNeighbor_trichotomy goal acc size cur curG t nb with
    ⟨heq, -⟩ | ⟨heq, -⟩ | ⟨hv, hcond, heq⟩
  · rw [heq]
  · rw [heq]
  · rw [heq]
    have hphi := phi_push_lt hinv hv hcond
    have hlen : (pushNeighbor goal cur curG t nb).frontier.length =
        t.frontier.length + 1 := by
      simp [pushNeighbor]
    unfold loopMeasure
    omega

theorem foldRelax_measure {start goal : Pos} {acc : Pos → Bool} {size : ℕ}
    {cur : Pos} {curG : ℕ} :
    ∀ (nbs : List Pos) (t : AState),
      (∀ nb ∈ nbs, nb ∈ orthoNeighbors cur) →
      FoldInv start goal acc size cur curG t →
      loopMeasure start size
          (nbs.foldl (relaxNeighbor goal acc size cur curG) t) ≤
        loopMeasure start size t := by
  intro nbs
  induction nbs with
  | nil => intro t hsub hinv; exact le_refl _
  | cons a rest ih =>
    intro t hsub hinv
    obtain ⟨hinv1, -⟩ :=
      foldInv_relax hinv (hsub a (List.mem_cons.mpr (Or.inl rfl)))
    have h1 := @relax_measure start goal acc size cur curG t a hinv
    have h2 := ih (relaxNeighbor goal acc size cur curG t a)
      (fun nb hnb => hsub nb (List.mem_cons.mpr (Or.inr hnb))) hinv1
    simp only [List.foldl_cons]
    omega

theorem expand_measure {start goal : Pos} {acc : Pos → Bool} {size : ℕ}
    {s : AState} {cur : Pos} {fcur : ℕ} {rest : List (Pos × ℕ)}
    (hinv : Inv start goal acc size s)
    (hpop : extractMin s.frontier = some ((cur, fcur), rest))
    (hne : cur ≠ goal) :
    loopMeasure start size
        (expandNode goal acc size cur { s with frontier := rest }) <
      loopMeasure start size s := by
  have hperm := extractMin_perm s.frontier (cur, fcur) rest hpop
  have hmem : (cur, fcur) ∈ s.frontier :=
    hperm.mem_iff.mpr (List.mem_cons.mpr (Or.inl rfl))
  obtain ⟨curG, hcurG, hcfle⟩ := hinv.ent (cur, fcur) hmem
  have hfold : FoldInv start goal acc size cur curG
      { s with frontier := rest } := by
    refine ⟨?_, hinv.gstart, ?_, hinv.cf, hinv.cf2, hinv.gbound,
      hinv.gdom, hinv.gubd, ?_, hcurG⟩
    · intro e he
      exact hinv.ent e (hperm.mem_iff.mpr (List.mem_cons.mpr (Or.inr he)))
    · intro p v hpv hpcur
      rcases hinv.inv8 p v hpv with ⟨f, hmemf, hf⟩ | hrel
      · left
        refine ⟨f, ?_, hf⟩
        refine perm_mem_rest hperm hmemf ?_
        intro hcontra
        rw [Prod.ext_iff] at hcontra
        exact hpcur hcontra.1
      · exact Or.inr hrel
    · intro v hv
      obtain ⟨f, hf⟩ := hinv.gnp v hv
      refine ⟨f, perm_mem_rest hperm hf ?_⟩
      intro hcontra
      rw [Prod.ext_iff] at hcontra
      exact hne hcontra.1.symm
  have heq : expandNode goal acc size cur { s with frontier := rest } =
      (orthoNeighbors cur).foldl (relaxNeighbor goal acc size cur curG)
        { s with frontier := rest } := by
    unfold expandNode
    rw [show ({ s with frontier := rest } : AState).gmap = s.gmap from rfl,
      hcurG]
    rfl
  rw [heq]
  have h1 := foldRelax_measure (orthoNeighbors cur)
    { s with frontier := rest } (fun nb hnb => hnb) hfold
  have hphi : phi start size { s with frontier := rest } =
      phi start size s := rfl
  have hlen : s.frontier.length = rest.length + 1 := by
    have := hperm.length_eq
    simpa using this
  unfold loopMeasure at h1 ⊢
  rw [hphi] at h1
  dsimp only at h1 ⊢
  omega

/-! ### Completeness: a reachable goal is always found -/

theorem astarLoop_complete {start goal : Pos} {acc : Pos → Bool}
    {size : ℕ} :
    ∀ (fuel : ℕ) (s : AState), Inv start goal acc size s →
      loopMeasure start size s < fuel →
      (∃ k, ReachN start acc size k goal) →
      ∃ p, astarLoop goal acc size fuel s = some p := by
  intro fuel
  induction fuel with
  | zero =>
    intro s hinv hm hreach
    omega
  | succ fuel ih =>
    intro s hinv hm hreach
    obtain ⟨k, hk⟩ := hreach
    rcases hpop : extractMin s.frontier with - | ⟨⟨cur, fcur⟩, rest⟩
    · rw [extractMin_eq_none] at hpop
      exact absurd hk (fun h => frontier_empty_no_reach hinv hpop h)
    · by_cases hcur : cur = goal
      · refine ⟨reconstruct s.came goal, ?_⟩
        rw [astarLoop, hpop]
        dsimp only
        rw [if_pos hcur]
      · obtain ⟨p, hp⟩ := ih _ (inv_expand hinv hpop hcur)
          (by
            have := expand_measure hinv hpop hcur
            omega)
          ⟨k, hk⟩
        refine ⟨p, ?_⟩
        rw [astarLoop, hpop]
        dsimp only
        rw [if_neg hcur]
        exact hp

/-! ### The initial search state -/

theorem inv_init (start goal : Pos) (acc : Pos → Bool) (size : ℕ) :
    Inv start goal acc size
      ⟨[(start, manhattan start goal)], [], [(start, 0)]⟩ := by
  refine ⟨?_, by simp [alookup_cons], ?_, ?_, ?_, ?_, ?_, ?_, ?_⟩
  · intro e he
    simp only [List.mem_singleton] at he
    subst he
    exact ⟨0, by simp [alookup_cons], by simp⟩
  · intro p v hpv
    by_cases hp : p = start
    · subst hp
      have hv0 : v = 0 := by
        simpa [alookup_cons] using hpv.symm
      subst hv0
      exact Or.inl ⟨manhattan p goal, List.mem_singleton.mpr rfl, by simp⟩
    · exact absurd hpv (by simp [alookup_cons, hp, alookup])
  · intro p q hpq
    exact absurd hpq (by simp [alookup])
  · intro p v hpv hps
    by_cases hp : p = start
    · exact absurd hp hps
    · exact absurd hpv (by simp [alookup_cons, hp, alookup])
  · intro p v hpv
    by_cases hp : p = start
    · subst hp
      have hv0 : v = 0 := by
        simpa [alookup_cons] using hpv.symm
      simp [hv0]
    · exact absurd hpv (by simp [alookup_cons, hp, alookup])
  · intro p v hpv
    by_cases hp : p = start
    · exact hp ▸ start_mem_domainD start size
    · exact absurd hpv (by simp [alookup_cons, hp, alookup])
  · intro p v hpv
    by_cases hp : p = start
    · subst hp
      have hv0 : v = 0 := by
        simpa [alookup_cons] using hpv.symm
      have hkc : keyCount [(p, (0 : ℕ))] = 1 := by
        unfold keyCount
        rw [List.map_cons, List.map_nil,
          List.dedup_cons_of_not_mem (List.not_mem_nil p),
          List.dedup_nil]
        rfl
      show v < keyCount [(p, (0 : ℕ))]
      omega
    · exact absurd hpv (by simp [alookup_cons, hp, alookup])
  · intro v hv
    by_cases hg : goal = start
    · exact ⟨manhattan start goal, by rw [hg]; exact List.mem_singleton.mpr rfl⟩
    · exact absurd hv (by simp [alookup_cons, hg, alookup])

theorem measure_init (start goal : Pos) (size : ℕ) :
    loopMeasure start size
        ⟨[(start, manhattan start goal)], [], [(start, 0)]⟩ <
      astarFuel size := by
  have hD : (domainD start size).card ≤ size * size + 1 := by
    unfold domainD boundsFinset
    calc (insert start ((Finset.range size ×ˢ Finset.range size).image
          (fun ab => ((ab.1 : ℤ), (ab.2 : ℤ))))).card
        ≤ ((Finset.range size ×ˢ Finset.range size).image
          (fun ab => ((ab.1 : ℤ), (ab.2 : ℤ)))).card + 1 :=
          Finset.card_insert_le _ _
      _ ≤ (Finset.range size ×ˢ Finset.range size).card + 1 := by
          have := Finset.card_image_le (s := Finset.range size ×ˢ
            Finset.range size) (f := fun ab => ((ab.1 : ℤ), (ab.2 : ℤ)))
          omega
      _ = size * size + 1 := by
          rw [Finset.card_product, Finset.card_range]
  have hphi : phi start size
      ⟨[(start, manhattan start goal)], [], [(start, 0)]⟩ ≤
      (size * size + 1) * (size * size + 1) := by
    unfold phi
    calc (∑ p ∈ domainD start size,
          ((alookup [(start, (0 : ℕ))] p).elim
            ((domainD start size).card) id))
        ≤ ∑ _p ∈ domainD start size, (domainD start size).card := by
          refine Finset.sum_le_sum ?_
          intro p hp
          rcases hl : alookup [(start, (0 : ℕ))] p with - | v
          · simp
          · have hv0 : v = 0 := by
              by_cases hps : p = start
              · subst hps
                simpa [alookup_cons] using hl.symm
              · exact absurd hl (by simp [alookup_cons, hps, alookup])
            simp [hv0]
      _ = (domainD start size).card * (domainD start size).card := by
          rw [Finset.sum_const, smul_eq_mul]
      _ ≤ (size * size + 1) * (size * size + 1) :=
          Nat.mul_le_mul hD hD
  have hfuel : astarFuel size =
      5 * ((size * size + 1) * (size * size + 1)) + 2 := by
    unfold astarFuel
    ring
  unfold loopMeasure
  dsimp only
  rw [hfuel]
  simp only [List.length_singleton]
  omega

/-! ### C2: `find_path` success is exactly reachability over accessible
cells (goal included, start exempt) -/

/-- Counterexample to C2 as stated: with no cell accessible, the
two-cell path `[(0,0), (1,0)]` has no strictly interior cell at all, so
a path with accessible interior and exempt endpoints exists, yet
`find_path` returns `None` — the goal itself must be accessible for the
search ever to enqueue it. -/
theorem find_path_none_iff_counterexample : ¬ ClaimC2Statement := by
  intro h
  have h2 := (h ((0 : ℤ), (0 : ℤ)) ((1 : ℤ), (0 : ℤ))
    (fun _ => false) 2).mp (by decide)
  exact h2 ⟨[((0 : ℤ), (0 : ℤ)), ((1 : ℤ), (0 : ℤ))], by decide⟩

/-- C2 amended: `find_path` returns `None` exactly when there is no
orthogonal path from start to goal all of whose cells except the start
are accessible and in bounds (so the goal, unlike the start, must be
accessible whenever it differs from the start); and every returned path
is such a path — in particular every coordinate on it except possibly
the start satisfies `is_accessible`. -/
theorem find_path_none_iff (start goal : Pos) (acc : Pos → Bool)
    (size : ℕ) :
    (findPath start goal acc size = none ↔
      ¬ ∃ π, ValidPath start goal acc size π) ∧
    (∀ p, findPath start goal acc size = some p →
      ValidPath start goal acc size p) := by
  have hinv := inv_init start goal acc size
  have hsound := astarLoop_some_spec (astarFuel size)
    ⟨[(start, manhattan start goal)], [], [(start, 0)]⟩ hinv
  constructor
  · constructor
    · intro hnone hex
      obtain ⟨π, hπ⟩ := hex
      have hreach := reachN_of_validPath π hπ
      obtain ⟨p, hp⟩ := astarLoop_complete (astarFuel size)
        ⟨[(start, manhattan start goal)], [], [(start, 0)]⟩ hinv
        (measure_init start goal size) ⟨steps π, hreach⟩
      unfold findPath at hnone
      rw [hnone] at hp
      exact Option.noConfusion hp
    · intro hno
      rcases hres : findPath start goal acc size with - | p
      · rfl
      · unfold findPath at hres
        exact absurd ⟨p, (hsound p hres).1⟩ hno
  · intro p hp
    unfold findPath at hp
    exact (hsound p hp).1

/-- Witness for C2 amended: a concrete successful search whose returned
path is a valid path. -/
theorem find_path_none_iff_witness :
    findPath ((0 : ℤ), (0 : ℤ)) ((0 : ℤ), (0 : ℤ)) (fun _ => false) 1 =
        some [((0 : ℤ), (0 : ℤ))] ∧
      ValidPath ((0 : ℤ), (0 : ℤ)) ((0 : ℤ), (0 : ℤ)) (fun _ => false) 1
        [((0 : ℤ), (0 : ℤ))] :=
  ⟨by decide,
    (find_path_none_iff ((0 : ℤ), (0 : ℤ)) ((0 : ℤ), (0 : ℤ))
      (fun _ => false) 1).2 [((0 : ℤ), (0 : ℤ))] (by decide)⟩

/-! ### C1: A* optimality -/

/-- C1.  Whenever some orthogonal path through accessible in-bounds
cells joins start and goal, `find_path` returns a path that is itself
such a path and whose step count is minimal among all of them — it has
the length of a true shortest orthogonal path under the accessibility
predicate; when `start = goal` the returned path is the trivial
single-cell path `[start]`. -/
theorem find_path_optimal (start goal : Pos) (acc : Pos → Bool)
    (size : ℕ) (h : ∃ π, ValidPathAll start goal acc size π) :
    ∃ p, findPath start goal acc size = some p ∧
      ValidPathAll start goal acc size p ∧
      (∀ π, ValidPathAll start goal acc size π → steps p ≤ steps π) ∧
      (start = goal → p = [start]) := by
  obtain ⟨π₀, hπ₀⟩ := h
  have hinv := inv_init start goal acc size
  obtain ⟨p, hp⟩ := astarLoop_complete (astarFuel size)
    ⟨[(start, manhattan start goal)], [], [(start, 0)]⟩ hinv
    (measure_init start goal size)
    ⟨steps π₀, reachN_of_validPath π₀ hπ₀.1⟩
  obtain ⟨hpath, hmin⟩ := astarLoop_some_spec (astarFuel size)
    ⟨[(start, manhattan start goal)], [], [(start, 0)]⟩ hinv p hp
  have hstart_valid : validCell acc size start := by
    obtain ⟨hne, hhead, -, -, -⟩ := hπ₀.1
    refine hπ₀.2 start ?_
    rcases hπ : π₀ with - | ⟨a, t⟩
    · exact absurd hπ hne
    · rw [hπ] at hhead
      simp only [List.head?_cons, Option.some.injEq] at hhead
      exact hhead ▸ List.mem_cons.mpr (Or.inl rfl)
  have hpAll : ValidPathAll start goal acc size p := by
    refine ⟨hpath, ?_⟩
    intro c hc
    rcases hpcase : p with - | ⟨a, t⟩
    · exact absurd hpcase hpath.1
    · have hhead := hpath.2.1
      have htail := hpath.2.2.2.2
      rw [hpcase] at hhead hc htail
      simp only [List.head?_cons, Option.some.injEq] at hhead
      rcases List.mem_cons.mp hc with hc | hc
      · rw [hc, hhead]
        exact hstart_valid
      · exact htail c hc
  refine ⟨p, by unfold findPath; exact hp, hpAll, ?_, ?_⟩
  · intro π hπ
    exact hmin (steps π) (reachN_of_validPath π hπ.1)
  · intro hsg
    have h0 : ReachN start acc size 0 goal := by
      rw [← hsg]
      exact ReachN.refl
    have hle := hmin 0 h0
    have hne := hpath.1
    have hhead := hpath.2.1
    rcases hpcase : p with - | ⟨a, t⟩
    · exact absurd hpcase hne
    · rw [hpcase] at hle hhead
      have ht : t = [] := by
        simp only [steps, List.length_cons] at hle
        exact List.length_eq_zero.mp (by omega)
      subst ht
      simp only [List.head?_cons, Option.some.injEq] at hhead
      rw [hhead]

/-- Witness for C1: a fully accessible 2×2 grid with an explicit valid
path between opposite corners. -/
theorem find_path_optimal_witness :
    (∃ π, ValidPathAll ((0 : ℤ), (0 : ℤ)) ((1 : ℤ), (1 : ℤ))
      (fun _ => true) 2 π) ∧
    (∃ p, findPath ((0 : ℤ), (0 : ℤ)) ((1 : ℤ), (1 : ℤ))
        (fun _ => true) 2 = some p ∧
      ValidPathAll ((0 : ℤ), (0 : ℤ)) ((1 : ℤ), (1 : ℤ))
        (fun _ => true) 2 p ∧
      (∀ π, ValidPathAll ((0 : ℤ), (0 : ℤ)) ((1 : ℤ), (1 : ℤ))
        (fun _ => true) 2 π → steps p ≤ steps π) ∧
      (((0 : ℤ), (0 : ℤ)) = ((1 : ℤ), (1 : ℤ)) →
        p = [((0 : ℤ), (0 : ℤ))])) :=
  ⟨⟨[((0 : ℤ), (0 : ℤ)), ((0 : ℤ), (1 : ℤ)), ((1 : ℤ), (1 : ℤ))],
      by decide⟩,
    find_path_optimal ((0 : ℤ), (0 : ℤ)) ((1 : ℤ), (1 : ℤ))
      (fun _ => true) 2
      ⟨[((0 : ℤ), (0 : ℤ)), ((0 : ℤ), (1 : ℤ)), ((1 : ℤ), (1 : ℤ))],
        by decide⟩⟩

end Spec2Proof
